import Mathlib

/-!
Verification of the hkex-scraper pipeline (src/main.py, src/io_utils.py,
src/scraper.py, src/script.py) against its natural-language specification.

Python strings are modelled as `List Char` (`PyStr`); every Python string
operation the claims touch (strip, upper, split, substring containment,
int parsing, decimal rendering) is embedded as a structural Lean function
so that all definitions evaluate inside the kernel.  Python floats (used
only by `_parse_volume`) are modelled exactly as IEEE-754 binary64 values:
a dyadic pair of significand and binade exponent, with round-to-nearest,
ties-to-even carried out in integer arithmetic.

Time in the readiness poller is measured in tenths of a time unit, so the
1.5-unit sleep is 15 ticks and the 20-unit deadline is 200 ticks.
-/

/-- Python strings, modelled as their character lists. -/
abbrev PyStr := List Char

/-- Digit test used wherever the source regexes use the character class d. -/
def isDig (c : Char) : Bool := c.isDigit

/-- Whitespace test modelling which characters Python `str.strip()` removes
(boundary model: ASCII whitespace; the claims only use ASCII input). -/
def isWs (c : Char) : Bool := c.isWhitespace

/-- Embedding of Python `line.strip()`: drop whitespace from both ends. -/
def pyStrip (cs : PyStr) : PyStr :=
  ((cs.dropWhile isWs).reverse.dropWhile isWs).reverse

/-- Embedding of Python `str.upper()` on a single character (boundary model:
the ASCII case map, which covers every input the source feeds it). -/
def upChar (c : Char) : Char :=
  if 97 ≤ c.toNat ∧ c.toNat ≤ 122 then Char.ofNat (c.toNat - 32) else c

/-- Embedding of Python `str.upper()`. -/
def pyUpper (cs : PyStr) : PyStr := cs.map upChar

/-- Embedding of Python `str.lower()` on a single character (ASCII case map). -/
def downChar (c : Char) : Char :=
  if 65 ≤ c.toNat ∧ c.toNat ≤ 90 then Char.ofNat (c.toNat + 32) else c

/-- Embedding of Python `str.lower()`. -/
def pyLower (cs : PyStr) : PyStr := cs.map downChar

/-- Boolean test that `pat` occurs at the head of `cs` (Python `startswith`). -/
def startsW : PyStr → PyStr → Bool
  | [], _ => true
  | _ :: _, [] => false
  | p :: ps, c :: cs => p == c && startsW ps cs

/-- Embedding of the Python substring test `pat in cs`. -/
def containsSub (pat : PyStr) : PyStr → Bool
  | [] => startsW pat []
  | c :: cs => startsW pat (c :: cs) || containsSub pat cs

/-- Split at the first occurrence of `sep`, as Python `cs.split(sep, 1)` does
for a one-character separator: `none` when the separator does not occur. -/
def splitFirst (sep : Char) : PyStr → Option (PyStr × PyStr)
  | [] => none
  | c :: cs =>
    if c == sep then some ([], cs)
    else match splitFirst sep cs with
      | none => none
      | some (l, r) => some (c :: l, r)

/-- Numeric value of a digit character. -/
def digVal (c : Char) : Nat := c.toNat - 48

/-- Fold a digit list into the natural number it denotes. -/
def digitsToNat (cs : PyStr) : Nat :=
  cs.foldl (fun acc c => 10 * acc + digVal c) 0

/-- Embedding of Python `int(s)` on the strings the source feeds it
(boundary model: surrounding whitespace, an optional single sign, then one
or more ASCII digits; other Python literal forms never occur here). -/
def pyIntParse (cs : PyStr) : Option Int :=
  match pyStrip cs with
  | '-' :: rest => if rest ≠ [] ∧ rest.all isDig then some (-(digitsToNat rest : Int)) else none
  | '+' :: rest => if rest ≠ [] ∧ rest.all isDig then some ((digitsToNat rest : Int)) else none
  | rest => if rest ≠ [] ∧ rest.all isDig then some ((digitsToNat rest : Int)) else none

/-- Decimal digits of a natural number, most significant first, produced with
an explicit fuel argument so the definition is structural. -/
def natDigitsGo : Nat → Nat → PyStr → PyStr
  | 0, _, acc => acc
  | _ + 1, 0, acc => acc
  | fuel + 1, n, acc => natDigitsGo fuel (n / 10) (Char.ofNat (48 + n % 10) :: acc)

/-- Embedding of Python `str(n)` for a natural number. -/
def natToStr (n : Nat) : PyStr :=
  if n = 0 then ['0'] else natDigitsGo (n + 1) n []

/-- Embedding of Python `str(i)` for an integer. -/
def intToStr (i : Int) : PyStr :=
  if i < 0 then '-' :: natToStr i.natAbs else natToStr i.natAbs

/-!
## Work Distributor (src/main.py, `chunk`)

```python
def chunk(lst, n):
    size = ceil(len(lst) / n)
    for i in range(0, len(lst), size):
        yield lst[i:i + size]
```

`math.ceil(len(lst)/n)` is modelled as the exact natural-number ceiling
`(len + n - 1) / n`: the float division is exact for every list length and
worker count below 2^53, far beyond any reachable input.  When the list is
empty the computed size is 0 and `range(0, 0, 0)` raises `ValueError` as
soon as the generator is consumed, so the embedding returns `none` there;
otherwise it returns the slices `lst[i*size : i*size + size]` for
`i < ceil(len/size)`, exactly the iterations of the `range` loop.
-/

/-- Chunk size `ceil(len / n)` computed by `chunk`. -/
def chunkSize (len n : Nat) : Nat := (len + n - 1) / n

/-- Embedding of `chunk` from src/main.py, as the list of slices that
consuming the generator yields; `none` models the `ValueError` raised by
`range(0, 0, 0)` on an empty input list. -/
def chunk (lst : List α) (n : Nat) : Option (List (List α)) :=
  let size := chunkSize lst.length n
  if size = 0 then none
  else some ((List.range ((lst.length + size - 1) / size)).map
    (fun i => (lst.drop (i * size)).take size))

/-!
## Incremental Writer (src/io_utils.py, `write_row`)

```python
def write_row(row: dict) -> None:
    with _csv_lock:
        file_exists = os.path.isfile(CSV_TEMP_PATH)
        with open(CSV_TEMP_PATH, "a", newline="") as f:
            w = csv.DictWriter(f, fieldnames=FIELDNAMES)
            if not file_exists:
                w.writeheader()
            w.writerow(row)
```

The Intermediate Store is `none` while the temp CSV does not exist and
`some lines` once it does.  A line is either the header row written by
`writeheader` or the serialized data row of one record; rows are opaque
here because the claim only counts them.  The process-wide `_csv_lock`
serializes every append, so a run of concurrent appends is a sequence of
`write_row` state transitions, modelled by folding over the call order.
-/

/-- One line of the temp CSV: the header row or a serialized record. -/
inductive CsvLine (R : Type) where
  | header : CsvLine R
  | data : R → CsvLine R
deriving DecidableEq

/-- Test for the header line. -/
def CsvLine.isHeader {R : Type} : CsvLine R → Bool
  | .header => true
  | .data _ => false

/-- Extract the record of a data line. -/
def CsvLine.dataOf {R : Type} : CsvLine R → Option R
  | .header => none
  | .data r => some r

/-- Embedding of `write_row`: one appending transition of the Intermediate
Store, the whole body being a single critical section of `_csv_lock`. -/
def write_row {R : Type} (store : Option (List (CsvLine R))) (row : R) :
    Option (List (CsvLine R)) :=
  match store with
  | none => some [CsvLine.header, CsvLine.data row]
  | some ls => some (ls ++ [CsvLine.data row])

/-- A serialized sequence of `write_row` calls starting from a given store
state (the lock admits exactly one interleaving order, the fold order). -/
def write_rows {R : Type} (store : Option (List (CsvLine R))) (rows : List R) :
    Option (List (CsvLine R)) :=
  rows.foldl write_row store

/-!
## Field Extractor (src/scraper.py, `_extract`, and the identical
`extract_value_with_regex` in src/script.py)

```python
def _extract(text: str, pattern: str, default="N/A"):
    if not text:
        return default
    m = re.search(pattern, text)
    return m.group(1) if m else default
```

The two patterns the source ever passes are `HK\$(\d+\.\d+)` and
`(\d+\.\d+)x`; both have the shape: a literal prefix, a captured group
`\d+\.\d+`, and a literal suffix.  For either pattern the regex engine
needs no backtracking: shortening a greedy digit run only exposes another
digit where `.`, `x`, or the end of the pattern is required, so a match at
a position is exactly a maximal digit run, a dot, and a maximal digit run
followed by the literal suffix.  `re.search` scans positions left to
right, which `searchPat` mirrors.
-/

/-- Strip a literal pattern fragment from the head of the text, returning
the remainder on success. -/
def stripHead : PyStr → PyStr → Option PyStr
  | [], cs => some cs
  | _ :: _, [] => none
  | p :: ps, c :: cs => if p == c then stripHead ps cs else none

/-- Match `pre ++ (\d+\.\d+) ++ suf` at the head of `cs`, returning the
captured group. -/
def matchPat (pre suf : PyStr) (cs : PyStr) : Option PyStr :=
  match stripHead pre cs with
  | none => none
  | some r1 =>
    if r1.takeWhile isDig = [] then none
    else match r1.dropWhile isDig with
      | [] => none
      | d :: r2 =>
        if d = '.' then
          if r2.takeWhile isDig = [] then none
          else if startsW suf (r2.dropWhile isDig) then
            some (r1.takeWhile isDig ++ '.' :: r2.takeWhile isDig)
          else none
        else none

/-- Leftmost match of the pattern over the text, as `re.search` finds it. -/
def searchPat (pre suf : PyStr) : PyStr → Option PyStr
  | [] => matchPat pre suf []
  | c :: cs =>
    match matchPat pre suf (c :: cs) with
    | some g => some g
    | none => searchPat pre suf cs

/-- Embedding of `_extract` (and `extract_value_with_regex`), with the
regex represented by its literal prefix and suffix around the captured
decimal group. -/
def _extract (text : PyStr) (pre suf : PyStr) (dflt : PyStr := "N/A".data) : PyStr :=
  if text = [] then dflt
  else match searchPat pre suf text with
    | some g => g
    | none => dflt

/-- Declarative match predicate: the pattern `pre (\d+\.\d+) suf` matches
the text at position `i` with captured group `g`.  The digit runs are
forced maximal: the character after the first run is the dot, the one
after the second is the suffix head (a non-digit) or, when the suffix is
empty, the following text character, which must not be a digit. -/
def GroupAt (pre suf : PyStr) (cs : PyStr) (i : Nat) (g : PyStr) : Prop :=
  ∃ a b rest, g = a ++ '.' :: b ∧ a ≠ [] ∧ b ≠ [] ∧
    (∀ c ∈ a, isDig c = true) ∧ (∀ c ∈ b, isDig c = true) ∧
    cs.drop i = pre ++ a ++ '.' :: b ++ suf ++ rest ∧
    (suf = [] → ∀ c, rest.head? = some c → isDig c = false)

/-!
## Volume extraction (src/scraper.py, `_parse_volume`)

```python
def _parse_volume(text: str) -> str:
    if not text:
        return "N/A"
    m = re.search(r"(\d+\.?\d*)", text)
    if not m:
        return "N/A"
    v = float(m.group(1))
    t = text.upper()
    if "B" in t:
        v *= 1_000_000_000
    elif "M" in t:
        v *= 1_000_000
    elif "K" in t:
        v *= 1_000
    return str(int(v)) if v.is_integer() else str(v)
```

The number pattern `\d+\.?\d*` is again backtracking-free: a maximal digit
run, optionally a dot and another maximal digit run.  The float
arithmetic is IEEE-754 binary64 and is modelled exactly: a parsed decimal
is correctly rounded to the nearest double, and each multiplication by a
power of ten rounds the exact product back to 53 significant bits with
ties to even, all in integer arithmetic.
-/

/-- Leftmost match of `(\d+\.?\d*)` in the text: the first digit run,
together with a dot and the following digit run when a dot is adjacent. -/
def numSearch : PyStr → Option PyStr
  | [] => none
  | c :: cs =>
    if isDig c then
      let a := (c :: cs).takeWhile isDig
      some (match (c :: cs).dropWhile isDig with
        | '.' :: r2 => a ++ '.' :: r2.takeWhile isDig
        | _ => a)
    else numSearch cs

/-- A finite binary64 value `sig * 2 ^ (ex - 52)`; for a normalized
nonzero double `sig` is the 53-bit significand and `ex` the binade
exponent, but the representation itself is not constrained. -/
structure Dyad where
  sig : Nat
  ex : Int
deriving DecidableEq

/-- Fuel-driven base-2 logarithm: greatest `e` with `2 ^ e ≤ n` (0 for 0,
for any fuel at least the bit length of `n`). -/
def log2Fuel : Nat → Nat → Nat
  | 0, _ => 0
  | fuel + 1, n => if n < 2 then 0 else log2Fuel fuel (n / 2) + 1

/-- Smallest `m` with `b ≤ 2 ^ m * a`, found by counting up with fuel. -/
def upPow : Nat → Nat → Nat → Nat → Nat
  | 0, _, _, _ => 0
  | fuel + 1, m, a, b => if b ≤ 2 ^ m * a then m else upPow fuel (m + 1) a b

/-- Round the rational `a / b` to the nearest integer, ties to even. -/
def rne (a b : Nat) : Nat :=
  let q := a / b
  let r := a % b
  if 2 * r < b then q
  else if b < 2 * r then q + 1
  else if q % 2 = 0 then q else q + 1

/-- Round the positive rational `a / b` to the nearest binary64 value
(round to nearest, ties to even); `a = 0` gives the zero value.  Inputs
stay far inside the normal range, so overflow and subnormals do not
arise. -/
def roundDyad (a b : Nat) : Dyad :=
  if a = 0 then ⟨0, 0⟩
  else
    let e : Int := if b ≤ a then (log2Fuel 1100 (a / b) : Int) else -(upPow 1100 0 a b : Int)
    let shift : Int := 52 - e
    if 0 ≤ shift then ⟨rne (a * 2 ^ shift.toNat) b, e⟩
    else ⟨rne a (b * 2 ^ (-shift).toNat), e⟩

/-- Embedding of Python `float(s)` for a matched group `\d+\.?\d*`: the
denoted decimal rational, correctly rounded to binary64. -/
def pyFloatOfDec (g : PyStr) : Dyad :=
  match splitFirst '.' g with
  | none => roundDyad (digitsToNat g) 1
  | some (ip, fp) => roundDyad (digitsToNat (ip ++ fp)) (10 ^ fp.length)

/-- Binary64 multiplication of a value by `10 ^ p`: the exact product,
rounded back to 53 significant bits (the Python int scale factors
1_000, 1_000_000 and 1_000_000_000 convert to binary64 exactly). -/
def dyadMulPow10 (d : Dyad) (p : Nat) : Dyad :=
  if d.sig = 0 then d
  else if d.ex ≤ 52 then roundDyad (d.sig * 10 ^ p) (2 ^ (52 - d.ex).toNat)
  else roundDyad (d.sig * 10 ^ p * 2 ^ (d.ex - 52).toNat) 1

/-- Embedding of `float.is_integer`: whether the dyadic value is whole. -/
def dyadIsInt (d : Dyad) : Bool :=
  if d.sig = 0 then true
  else if (52 : Int) ≤ d.ex then true
  else d.sig % 2 ^ ((52 : Int) - d.ex).toNat = 0

/-- Integer value of a whole dyadic value (`int(v)` on an integral float). -/
def dyadIntVal (d : Dyad) : Nat :=
  if (52 : Int) ≤ d.ex then d.sig * 2 ^ (d.ex - 52).toNat
  else d.sig / 2 ^ ((52 : Int) - d.ex).toNat

/-- Rendering of a binary64 value, modelling `str(int(v))` on the integral
branch exactly.  On the non-integral branch it prints the exact decimal
expansion of the double; Python `str(v)` prints the shortest decimal that
round-trips to the same double, so the two renderings denote the same
value but can differ in trailing digits.  No claim depends on those
digits: the non-integral branch only ever matters through being distinct
from integer renderings and from the sentinel. -/
def dyadRepr (d : Dyad) : PyStr :=
  if dyadIsInt d then natToStr (dyadIntVal d)
  else
    let k := ((52 : Int) - d.ex).toNat
    let ip := d.sig / 2 ^ k
    let fr := d.sig % 2 ^ k
    let ds := natToStr (fr * 5 ^ k)
    let padded := List.replicate (k - ds.length) '0' ++ ds
    natToStr ip ++ '.' :: (padded.reverse.dropWhile (fun c => c == '0')).reverse

/-- Value of `v` in `_parse_volume` just before rendering: the parsed
leading decimal as a binary64 value, scaled by the branch the upper-cased
fragment selects; `none` when the fragment is empty or has no number. -/
def _parse_volume_double (text : PyStr) : Option Dyad :=
  if text = [] then none
  else match numSearch text with
    | none => none
    | some g =>
      let v := pyFloatOfDec g
      let t := pyUpper text
      some (if t.contains 'B' then dyadMulPow10 v 9
        else if t.contains 'M' then dyadMulPow10 v 6
        else if t.contains 'K' then dyadMulPow10 v 3
        else v)

/-- The matched number and integer scale factor `_parse_volume` selects,
before any floating-point arithmetic: the branch structure of the
`if "B" in t / elif "M" / elif "K"` chain. -/
def _parse_volume_scale (text : PyStr) : Option (PyStr × Nat) :=
  if text = [] then none
  else match numSearch text with
    | none => none
    | some g =>
      let t := pyUpper text
      some (g, if t.contains 'B' then 1000000000
        else if t.contains 'M' then 1000000
        else if t.contains 'K' then 1000
        else 1)

/-- Embedding of `_parse_volume`. -/
def _parse_volume (text : PyStr) : PyStr :=
  match _parse_volume_double text with
  | none => "N/A".data
  | some v => dyadRepr v

/-- Exact mathematical value scaled by the selected factor, as a pair
numerator/denominator: what the volume arithmetic would produce with
exact arithmetic instead of binary64. -/
def exactScaled (text : PyStr) : Option (Nat × Nat) :=
  match _parse_volume_scale text with
  | none => none
  | some (g, mult) =>
    match splitFirst '.' g with
    | none => some (digitsToNat g * mult, 1)
    | some (ip, fp) => some (digitsToNat (ip ++ fp) * mult, 10 ^ fp.length)

/-!
## Page Readiness Detector (src/scraper.py, `_wait_for_data`)

```python
def _wait_for_data(page, timeout_s=20) -> bool:
    selectors = ["col_open", "col_high", "col_low", "col_ask", "col_volume"]
    deadline = time.time() + timeout_s

    while time.time() < deadline:
        found = 0
        for cls in selectors:
            try:
                txt = page.locator(f".{cls}").first.inner_text(timeout=1000)
                if "HK$" in txt:
                    found += 1
            except Exception:
                pass
        if found >= 2:
            return True
        time.sleep(1.5)

    return False
```

The page is a query oracle: polling pass `i` asks each selector for its
text, `none` modelling a raised `inner_text` exception.  Time advances by
the 1.5-unit sleep between passes (15 ticks in tenths); the queries
themselves are modelled as instantaneous, so pass `i` starts at tick
`15 * i` and runs exactly when `15 * i < 10 * timeout_s`.
-/

/-- The five named data regions the detector polls. -/
def selectors : List PyStr :=
  ["col_open".data, "col_high".data, "col_low".data, "col_ask".data, "col_volume".data]

/-- Number of regions whose text on pass `i` contains a currency-marked
value; a raised query counts as not qualifying. -/
def foundCount (q : Nat → PyStr → Option PyStr) (i : Nat) : Nat :=
  selectors.countP (fun cls =>
    match q i cls with
    | some txt => containsSub "HK$".data txt
    | none => false)

/-- The polling loop of `_wait_for_data`: `t` is the elapsed time in
tenths, `dl` the deadline in tenths, `i` the index of the next pass. -/
def waitGo (q : Nat → PyStr → Option PyStr) (dl t i : Nat) : Bool :=
  if t < dl then
    if 2 ≤ foundCount q i then true else waitGo q dl (t + 15) (i + 1)
  else false
termination_by dl - t
decreasing_by omega

/-- Embedding of `_wait_for_data`. -/
def _wait_for_data (q : Nat → PyStr → Option PyStr) (timeout_s : Nat := 20) : Bool :=
  waitGo q (10 * timeout_s) 0 0

/-!
## Scrape Worker (src/scraper.py, `_is_404` and `scrape_worker`)

One identifier of the partition sees one browser page, modelled as the
oracle of everything the code can observe of it: whether `page.goto`
raised (the `PWTimeoutError` re-raise and any other navigation error both
land in the per-identifier `except`), the navigated address and page
content read by `_is_404` (`none` content modelling a raised
`page.content()`, which `_is_404` swallows), the poll oracle for
`_wait_for_data`, and the `inner_text` results of the six data regions
(`none` modelling a raised query; for open/high/low/ask that exception
escapes to the iteration boundary, for pe/volume it is caught locally and
replaced by the empty string).
-/

/-- Observations one identifier's page visit can produce. -/
structure PageRun where
  navErr : Bool
  url : PyStr
  content : Option PyStr
  poll : Nat → PyStr → Option PyStr
  openText : Option PyStr
  highText : Option PyStr
  lowText : Option PyStr
  askText : Option PyStr
  peText : Option PyStr
  volText : Option PyStr

/-- Embedding of `_is_404` from src/scraper.py: address contains the error
page name, or the page content contains the not-found phrase; a raised
`page.content()` makes the check fall through to `False`. -/
def _is_404 (pr : PageRun) : Bool :=
  if containsSub "404.aspx".data pr.url then true
  else match pr.content with
    | some c => containsSub "page requested".data (pyLower c)
    | none => false

/-- One scraped observation, the Record of the data model; field names
follow the CSV header (`PE` stands for the `P/E` column). -/
structure Record where
  CODE : PyStr
  DATE : PyStr
  OPEN : PyStr
  INTRADAY_HIGH : PyStr
  INTRADAY_LOW : PyStr
  CLOSE : PyStr
  PE : PyStr
  VOLUME : PyStr
  STATUS : PyStr
deriving DecidableEq

/-- The data dict as `scrape_worker` initializes it for one identifier. -/
def initRecord (code date : PyStr) : Record :=
  { CODE := code, DATE := date, OPEN := "N/A".data, INTRADAY_HIGH := "N/A".data,
    INTRADAY_LOW := "N/A".data, CLOSE := "N/A".data, PE := "N/A".data,
    VOLUME := "N/A".data, STATUS := "Success".data }

/-- The currency price pattern `HK\$(\d+\.\d+)`: prefix and suffix of the
captured decimal group. -/
def hkPre : PyStr := "HK$".data

/-- The ratio pattern `(\d+\.\d+)x`: suffix of the captured group. -/
def ratioSuf : PyStr := "x".data

/-- The try-block body of one loop iteration of `scrape_worker`: either the
completed Record (`ok`) or, at the point an exception is raised, the data
dict built so far (`error`), which the handler will downgrade. -/
def runBody (code date : PyStr) (pr : PageRun) : Except Record Record :=
  let data := initRecord code date
  if pr.navErr then .error data
  else if _is_404 pr then .error data
  else if _wait_for_data pr.poll 20 = false then .error data
  else match pr.openText with
  | none => .error data
  | some t1 =>
    let data := { data with OPEN := _extract t1 hkPre [] }
    match pr.highText with
    | none => .error data
    | some t2 =>
      let data := { data with INTRADAY_HIGH := _extract t2 hkPre [] }
      match pr.lowText with
      | none => .error data
      | some t3 =>
        let data := { data with INTRADAY_LOW := _extract t3 hkPre [] }
        match pr.askText with
        | none => .error data
        | some t4 =>
          let data := { data with CLOSE := _extract t4 hkPre [] }
          let peT := pr.peText.getD []
          let data := { data with PE := _extract peT [] ratioSuf }
          let volT := pr.volText.getD []
          let data := { data with VOLUME := _parse_volume volT }
          .ok data

/-- The Record one iteration hands to `write_row`: the completed Record on
success, or the partial dict with `STATUS` downgraded to `Error` when the
iteration raised. -/
def emittedRecord (code date : PyStr) (pr : PageRun) : Record :=
  match runBody code date pr with
  | .ok r => r
  | .error r => { r with STATUS := "Error".data }

/-- Result of one worker: its reported counts and the Records it appended
to the Intermediate Store, in emission order. -/
structure WorkerResult where
  successCount : Nat
  failCount : Nat
  written : List Record

/-- Embedding of the `for stock_code in stock_codes` loop of
`scrape_worker`: the page each identifier sees is given by the oracle
`env`. -/
def scrape_worker (codes : List PyStr) (env : PyStr → PageRun) (date : PyStr) :
    WorkerResult :=
  codes.foldl
    (fun acc code =>
      match runBody code date (env code) with
      | .ok r =>
        { acc with successCount := acc.successCount + 1, written := acc.written ++ [r] }
      | .error r =>
        let r2 : Record := { r with STATUS := "Error".data }
        { acc with failCount := acc.failCount + 1, written := acc.written ++ [r2] })
    ⟨0, 0, []⟩

/-!
## Outcome classification with the rich taxonomy
(src/script.py, `is_404_page`, `validate_stock_page`, `scrape_stock_data`)

The `AllDataNA` status lives in the src/script.py variant of the pipeline,
whose page observations come through Selenium: `find_elements` returns the
text of every matching element (used by the 404 check and the validity
check), and `get_element_with_retry` either produces an element text
within its deadline or `None`.
-/

/-- Observations one identifier's page visit can produce in the
src/script.py variant. -/
structure SelPage where
  navErr : Bool
  currentUrl : PyStr
  pageTitle : PyStr
  pageSource : PyStr
  openEls : List PyStr
  highEls : List PyStr
  lowEls : List PyStr
  prevclsEls : List PyStr
  openRetry : Option PyStr
  highRetry : Option PyStr
  lowRetry : Option PyStr
  prevclsRetry : Option PyStr
  peRetry : Option PyStr
  volRetry : Option PyStr

/-- Embedding of `is_404_page` from src/script.py: address, title, page
text and essential-element checks in order. -/
def is_404_page (pg : SelPage) : Bool :=
  if containsSub "404.aspx".data pg.currentUrl
      || containsSub "error".data (pyLower pg.currentUrl) then true
  else if containsSub "404".data (pyLower pg.pageTitle)
      || containsSub "not found".data (pyLower pg.pageTitle)
      || containsSub "error".data (pyLower pg.pageTitle) then true
  else if containsSub "page not found".data (pyLower pg.pageSource)
      || containsSub "404 error".data (pyLower pg.pageSource)
      || containsSub "does not exist".data (pyLower pg.pageSource)
      || containsSub "unavailable".data (pyLower pg.pageSource) then true
  else if pg.openEls = [] ∧ pg.highEls = [] ∧ pg.lowEls = [] then true
  else false

/-- Embedding of `validate_stock_page` from src/script.py: some indicator
element's text contains a currency-marked price. -/
def validate_stock_page (pg : SelPage) : Bool :=
  (pg.openEls ++ pg.highEls ++ pg.prevclsEls).any
    (fun t => t ≠ [] && (searchPat hkPre [] t).isSome)

/-- Volume handling of src/script.py: the regex `(\d+\.?\d*)M?` searched in
the element text; on a match the group string itself, scaled through
binary64 when the text contains a capital `M`, then passed to `str`. -/
def scriptVolume (txt : PyStr) : Option PyStr :=
  match numSearch txt with
  | none => none
  | some g =>
    if txt.contains 'M' then some (dyadRepr (dyadMulPow10 (pyFloatOfDec g) 6))
    else some g

/-- The field-extraction phase of `scrape_stock_data`: each region's
retried query either assigns its field or leaves the default in place. -/
def scriptExtract (pg : SelPage) (data0 : Record) : Record :=
  let data := match pg.openRetry with
    | some t => { data0 with OPEN := _extract t hkPre [] }
    | none => data0
  let data := match pg.highRetry with
    | some t => { data with INTRADAY_HIGH := _extract t hkPre [] }
    | none => data
  let data := match pg.lowRetry with
    | some t => { data with INTRADAY_LOW := _extract t hkPre [] }
    | none => data
  let data := match pg.prevclsRetry with
    | some t => { data with CLOSE := _extract t hkPre [] }
    | none => data
  let data := match pg.peRetry with
    | some t => { data with PE := _extract t [] ratioSuf }
    | none => data
  match pg.volRetry with
  | some t => match scriptVolume t with
    | some v => { data with VOLUME := v }
    | none => data
  | none => data

/-- Embedding of `scrape_stock_data` from src/script.py for one identifier
(navigation through the final classification; the emitted Record). -/
def scrape_stock_data (code date : PyStr) (pg : SelPage) : Record :=
  let data := initRecord code date
  if pg.navErr then { data with STATUS := "TimeoutOrError".data }
  else if is_404_page pg then { data with STATUS := "InvalidStockCode".data }
  else if validate_stock_page pg = false then { data with STATUS := "NoStockData".data }
  else
    let data := scriptExtract pg data
    if data.OPEN = "N/A".data ∧ data.INTRADAY_HIGH = "N/A".data ∧
        data.INTRADAY_LOW = "N/A".data ∧ data.CLOSE = "N/A".data ∧
        data.PE = "N/A".data ∧ data.VOLUME = "N/A".data then
      { data with STATUS := "AllDataNA".data }
    else data

/-!
## Finalizer (src/io_utils.py, `sort_and_finalize_csv`)

```python
df = pd.read_csv(CSV_TEMP_PATH)
try:
    df["CODE"] = df["CODE"].astype(int)
except Exception:
    pass
df_sorted = df.sort_values(by=["CODE"])
df_sorted.to_csv(CSV_FINAL_PATH, index=False)
```

The pandas boundary is modelled on the two column regimes the claim is
about.  When every code is an integer literal, `read_csv` types the CODE
column as integers (so `astype(int)` is the identity), the sort compares
integer values, and `to_csv` renders them back canonically.  When some
code is not numeric at all, the column stays a string column, the
`astype(int)` raise is swallowed, and the sort compares strings
lexicographically by code point.  A column whose codes are numeric but not
all integers becomes a float column in pandas; no claim concerns that
regime and the embedding leaves it out (`none`).
-/

/-- One row of the temp CSV: the CODE cell and the remaining cells. -/
structure CsvRow where
  CODE : PyStr
  rest : List PyStr
deriving DecidableEq

/-- Strip one optional leading sign (pandas numeric literal syntax). -/
def pdStripSign (s : PyStr) : PyStr :=
  match s with
  | '-' :: r => r
  | '+' :: r => r
  | r => r

/-- Well-formed exponent part of a pandas numeric literal. -/
def pdExpOk (ex : PyStr) : Bool :=
  match pdStripSign ex with
  | d => d ≠ [] && d.all isDig

/-- Well-formed mantissa of a pandas numeric literal: digits with at most
one dot and at least one digit. -/
def pdMantOk (m : PyStr) : Bool :=
  match splitFirst '.' m with
  | none => m ≠ [] && m.all isDig
  | some (ip, fp) => (ip ++ fp) ≠ [] && ip.all isDig && fp.all isDig

/-- Boundary model of pandas numeric-column inference for one cell: a
float literal (optional sign, digits with at most one dot and at least one
digit, optional lowercase exponent). -/
def pdNumericStr (cs : PyStr) : Bool :=
  match splitFirst 'e' (pdStripSign (pyStrip cs)) with
  | some (m, ex) => pdExpOk ex && pdMantOk m
  | none => pdMantOk (pdStripSign (pyStrip cs))

/-- Integer sort key of a row in the numeric regime. -/
def codeKey (r : CsvRow) : Int := (pyIntParse r.CODE).getD 0

/-- The CODE cell after `astype(int)` and `to_csv`: the canonical decimal
rendering of its integer value. -/
def normalizeRow (r : CsvRow) : CsvRow := { r with CODE := intToStr (codeKey r) }

/-- Lexicographic code-point order on strings, the pandas string sort. -/
def lexLe : PyStr → PyStr → Bool
  | [], _ => true
  | _ :: _, [] => false
  | a :: as_, b :: bs =>
    if a.toNat < b.toNat then true
    else if b.toNat < a.toNat then false
    else lexLe as_ bs

/-- Comparison of rows by integer code value. -/
def rowIntLe (r s : CsvRow) : Prop := codeKey r ≤ codeKey s

/-- Comparison of rows by lexicographic code string order. -/
def rowLexLe (r s : CsvRow) : Prop := lexLe r.CODE s.CODE = true

instance : DecidableRel rowIntLe := fun _ _ => Int.decLe _ _

instance : DecidableRel rowLexLe := fun _ _ => instDecidableEqBool _ _

/-- Embedding of `sort_and_finalize_csv` on the loaded rows of an existing
Intermediate Store: the rows of the Canonical Output.  The sort that
models `sort_values` ascending is a stable textbook sort; pandas promises
only the resulting order, which is all the claims consume.  `none` is the
all-float column regime outside the modelled pandas boundary. -/
def sort_and_finalize_csv (rows : List CsvRow) : Option (List CsvRow) :=
  if rows.all (fun r => (pyIntParse r.CODE).isSome) then
    some ((rows.map normalizeRow).insertionSort rowIntLe)
  else if rows.any (fun r => !(pdNumericStr r.CODE)) then
    some (rows.insertionSort rowLexLe)
  else none

/-!
## Identifier source (src/main.py, `load_stock_codes_from_file`)

```python
for line in f:
    line = line.strip()
    if not line or line.startswith("#"):
        continue
    if "-" not in line:
        raise ValueError(f"Invalid range line: {line}")
    start_s, end_s = line.split("-", 1)
    try:
        start = int(start_s)
        end = int(end_s)
    except ValueError:
        raise ValueError(f"Invalid integers in line: {line}")
    if start >= end:
        raise ValueError(f"Invalid range (start >= end): {line}")
    codes.extend(str(i) for i in range(start, end))
```
-/

/-- Contribution of one line of the range file: the identifiers it expands
to (empty for skipped lines), or the raised `ValueError` message. -/
def processLine (line : PyStr) : Except PyStr (List PyStr) :=
  let l := pyStrip line
  if l = [] then .ok []
  else if startsW "#".data l then .ok []
  else if l.contains '-' = false then .error ("Invalid range line: ".data ++ l)
  else match splitFirst '-' l with
    | none => .error ("Invalid range line: ".data ++ l)
    | some (start_s, end_s) =>
      match pyIntParse start_s, pyIntParse end_s with
      | some start, some e =>
        if start ≥ e then .error ("Invalid range (start >= end): ".data ++ l)
        else .ok ((List.range (e - start).toNat).map (fun i : Nat => intToStr (start + (i : Int))))
      | _, _ => .error ("Invalid integers in line: ".data ++ l)

/-- The line loop of `load_stock_codes_from_file`, accumulating codes until
a malformed line raises. -/
def loadGo : List PyStr → List PyStr → Except PyStr (List PyStr)
  | [], acc => .ok acc
  | l :: ls, acc =>
    match processLine l with
    | .error e => .error e
    | .ok new => loadGo ls (acc ++ new)

/-- Embedding of `load_stock_codes_from_file` on the stripped lines of the
range file. -/
def load_stock_codes_from_file (lines : List PyStr) : Except PyStr (List PyStr) :=
  loadGo lines []

/-- Codes a well-formed line contributes (for stating the loader theorem). -/
def lineCodes (l : PyStr) : List PyStr :=
  match processLine l with
  | .ok v => v
  | .error _ => []

/-- Decidable equality for loader results, so concrete loader runs can be
checked by evaluation. -/
instance : DecidableEq (Except PyStr (List PyStr)) := fun a b =>
  match a, b with
  | .ok x, .ok y =>
    if h : x = y then .isTrue (by rw [h]) else .isFalse (by simp [h])
  | .error x, .error y =>
    if h : x = y then .isTrue (by rw [h]) else .isFalse (by simp [h])
  | .ok _, .error _ => .isFalse (by simp)
  | .error _, .ok _ => .isFalse (by simp)

/-!
## Lemmas and theorems
-/

lemma char_toNat_inj {a b : Char} (h : a.toNat = b.toNat) : a = b := by
  apply Char.ext
  unfold Char.toNat at h
  exact UInt32.toNat.inj h

lemma chunkSize_pos {len n : Nat} (hn : 1 ≤ n) (hlen : 1 ≤ len) :
    1 ≤ chunkSize len n := by
  unfold chunkSize
  rw [Nat.le_div_iff_mul_le (show 0 < n by omega)]
  omega

lemma chunkSize_mul_ge (len n : Nat) (hn : 1 ≤ n) :
    len ≤ n * chunkSize len n := by
  unfold chunkSize
  have h := Nat.div_add_mod (len + n - 1) n
  have h2 := Nat.mod_lt (len + n - 1) (show 0 < n by omega)
  omega

lemma slices_flatten (s : Nat) :
    ∀ (k : Nat) (l : List α), l.length ≤ k * s →
      ((List.range k).map (fun i => (l.drop (i * s)).take s)).flatten = l := by
  intro k
  induction k with
  | zero =>
    intro l hl
    simp at hl
    simp [hl]
  | succ k ih =>
    intro l hl
    rw [List.range_succ_eq_map]
    simp only [List.map_cons, List.map_map, List.flatten_cons]
    have harg : ∀ i : Nat,
        ((fun i => (l.drop (i * s)).take s) ∘ (fun i => i + 1)) i
          = ((l.drop s).drop (i * s)).take s := by
      intro i
      simp only [Function.comp]
      rw [List.drop_drop]
      congr 1
      ring_nf
    rw [funext harg]
    have hl2 : l.length ≤ k * s + s := by
      have h3 : (k + 1) * s = k * s + s := Nat.succ_mul k s
      rw [h3] at hl
      exact hl
    have hlen2 : (l.drop s).length ≤ k * s := by
      simp only [List.length_drop]
      omega
    rw [ih (l.drop s) hlen2]
    simp

lemma chunkCount_le {len n : Nat} (hn : 1 ≤ n) (hlen : 1 ≤ len) :
    (len + chunkSize len n - 1) / chunkSize len n ≤ n := by
  have hs := chunkSize_pos hn hlen
  have h1 := chunkSize_mul_ge len n hn
  have h2 : (len + chunkSize len n - 1) / chunkSize len n < n + 1 := by
    rw [Nat.div_lt_iff_lt_mul (by omega)]
    rw [Nat.succ_mul]
    omega
  omega

lemma chunkLast_lt {len s : Nat} (hs : 1 ≤ s) (hlen : 1 ≤ len) :
    ((len + s - 1) / s - 1) * s < len := by
  have h1 : ((len + s - 1) / s) * s ≤ len + s - 1 := Nat.div_mul_le_self _ _
  have h2 : 1 ≤ (len + s - 1) / s := by
    rw [Nat.le_div_iff_mul_le (by omega)]
    omega
  have h3 : ((len + s - 1) / s - 1) * s = ((len + s - 1) / s) * s - s := by
    rw [Nat.sub_mul, Nat.one_mul]
  omega

/-- C1: the Work Distributor chunking.  The claim as frozen says the list
is partitioned into exactly `N` chunks; the code produces
`ceil(L / ceil(L/N))` chunks, which can be fewer, and raises on the empty
list.  This theorem proves the amended statement: for a nonempty list the
chunks number at most `N`, every chunk has size `ceil(L/N)` except the
last, which may be shorter, the concatenation in chunk order reproduces
the list (hence the chunks are pairwise disjoint slices), and no chunk
exceeds `ceil(L/N)`; the empty list yields the error value. -/
theorem C1_chunk_partition {α : Type} (lst : List α) (n : Nat) (hn : 1 ≤ n) :
    (lst = [] → chunk lst n = none) ∧
    (lst ≠ [] → ∃ cs, chunk lst n = some cs ∧
      cs.flatten = lst ∧
      cs.length ≤ n ∧
      (∀ c ∈ cs, c.length ≤ chunkSize lst.length n) ∧
      (∀ i, (h : i + 1 < cs.length) →
        (cs.get ⟨i, Nat.lt_of_succ_lt h⟩).length = chunkSize lst.length n)) := by
  constructor
  · intro he
    subst he
    simp only [chunk, chunkSize, List.length_nil]
    rw [if_pos (Nat.div_eq_of_lt (by omega))]
  · intro hne
    have hlen : 1 ≤ lst.length := List.length_pos.mpr hne
    have hs : 1 ≤ chunkSize lst.length n := chunkSize_pos hn hlen
    set s := chunkSize lst.length n with hsdef
    set k := (lst.length + s - 1) / s with hkdef
    refine ⟨(List.range k).map (fun i => (lst.drop (i * s)).take s), ?_, ?_, ?_, ?_, ?_⟩
    · simp only [chunk]
      rw [if_neg (by omega)]
    · apply slices_flatten
      have hle : lst.length ≤ s * k := by
        have h0 := chunkSize_mul_ge lst.length s hs
        simpa [chunkSize, hkdef] using h0
      rw [Nat.mul_comm]
      exact hle
    · simpa using chunkCount_le hn hlen
    · intro c hc
      simp only [List.mem_map, List.mem_range] at hc
      obtain ⟨i, _, rfl⟩ := hc
      simp [List.length_take]
    · intro i h
      have hlen2 : (List.range k).length = k := List.length_range k
      have hik : i + 1 < k := by
        simpa [hlen2] using h
      have hfit : i * s + s ≤ lst.length := by
        have h4 : (i + 1) * s ≤ (k - 1) * s := Nat.mul_le_mul_right s (by omega)
        have h5 : (k - 1) * s < lst.length := chunkLast_lt hs hlen
        have h6 : (i + 1) * s = i * s + s := Nat.succ_mul i s
        omega
      simp only [List.get_eq_getElem, List.getElem_map, List.getElem_range]
      simp only [List.length_take, List.length_drop]
      omega

/-- C1 counterexample: for the 5-element list and worker count 4 the claim
announces 4 chunks, but `chunk` yields ceil(5/ceil(5/4)) = 3 chunks. -/
theorem C1_chunk_counterexample :
    Option.map List.length (chunk ([0, 1, 2, 3, 4] : List Nat) 4) ≠ some 4 := by
  decide

/-- C1 witness: the amended theorem applied to the 5-element list with 4
workers. -/
theorem C1_chunk_partition_witness :
    1 ≤ 4 ∧ ([0, 1, 2, 3, 4] : List Nat) ≠ [] ∧
      ∃ cs, chunk ([0, 1, 2, 3, 4] : List Nat) 4 = some cs ∧
        cs.flatten = [0, 1, 2, 3, 4] ∧ cs.length ≤ 4 := by
  refine ⟨by decide, by decide, ?_⟩
  obtain ⟨cs, h1, h2, h3, -, -⟩ :=
    (C1_chunk_partition ([0, 1, 2, 3, 4] : List Nat) 4 (by decide)).2 (by decide)
  exact ⟨cs, h1, h2, h3⟩

lemma write_rows_some {R : Type} (ls : List (CsvLine R)) (rows : List R) :
    write_rows (some ls) rows = some (ls ++ rows.map CsvLine.data) := by
  induction rows generalizing ls with
  | nil => simp [write_rows]
  | cons r rs ih =>
    simp only [write_rows, List.foldl_cons] at *
    rw [show write_row (some ls) r = some (ls ++ [CsvLine.data r]) from rfl]
    rw [ih]
    simp

/-- C2: the Incremental Writer.  Starting from a nonexistent store, any
nonempty serialized sequence of `write_row` calls leaves the store holding
the header line followed by exactly the data lines of the appended
records in call order: the header was written exactly once (by the first
call, the only one that found no store), and no append is lost or
duplicated. -/
theorem C2_write_row_header_once {R : Type} (rows : List R) (hne : rows ≠ []) :
    ∃ ls, write_rows none rows = some ls ∧
      ls = CsvLine.header :: rows.map CsvLine.data ∧
      ls.countP (fun l => l.isHeader) = 1 ∧
      ls.filterMap CsvLine.dataOf = rows := by
  obtain ⟨r, rs, rfl⟩ := List.exists_cons_of_ne_nil hne
  refine ⟨CsvLine.header :: (r :: rs).map CsvLine.data, ?_, rfl, ?_, ?_⟩
  · simp only [write_rows, List.foldl_cons]
    rw [show write_row (none : Option (List (CsvLine R))) r
        = some [CsvLine.header, CsvLine.data r] from rfl]
    rw [show List.foldl write_row (some [CsvLine.header, CsvLine.data r]) rs
        = write_rows (some [CsvLine.header, CsvLine.data r]) rs from rfl]
    rw [write_rows_some]
    simp
  · simp only [List.countP_cons, List.countP_map]
    have hz : ∀ l : List R, l.countP ((fun l => l.isHeader) ∘ CsvLine.data) = 0 := by
      intro l
      simp [List.countP_eq_zero, CsvLine.isHeader, Function.comp]
    simp [hz, CsvLine.isHeader]
  · simp only [List.filterMap_cons]
    rw [show CsvLine.dataOf (CsvLine.header : CsvLine R) = none from rfl]
    rw [List.filterMap_map]
    have : (CsvLine.dataOf ∘ CsvLine.data) = fun r : R => some r := by
      funext x
      rfl
    rw [this]
    simp

/-- C2 witness: two appends to a fresh store. -/
theorem C2_write_row_header_once_witness :
    ([0, 1] : List Nat) ≠ [] ∧
      ∃ ls, write_rows none [0, 1] = some ls ∧
        ls = CsvLine.header :: ([0, 1].map CsvLine.data) ∧
        ls.countP (fun l => l.isHeader) = 1 ∧
        ls.filterMap CsvLine.dataOf = [0, 1] :=
  ⟨by decide, C2_write_row_header_once [0, 1] (by decide)⟩

lemma waitGo_false_iff (q : Nat → PyStr → Option PyStr) (dl : Nat) :
    ∀ t i, waitGo q dl t i = false ↔
      ∀ k, t + 15 * k < dl → foundCount q (i + k) < 2 := by
  intro t
  generalize hm : dl - t = m
  induction m using Nat.strong_induction_on generalizing t with
  | _ m ih =>
    intro i
    rw [waitGo]
    by_cases h : t < dl
    · rw [if_pos h]
      by_cases h2 : 2 ≤ foundCount q i
      · rw [if_pos h2]
        constructor
        · intro hc
          cases hc
        · intro hall
          exfalso
          have h0 := hall 0 (by omega)
          simp at h0
          omega
      · rw [if_neg h2]
        have hrec := ih (dl - (t + 15)) (by omega) (t + 15) rfl (i + 1)
        rw [hrec]
        constructor
        · intro hall k hk
          match k with
          | 0 =>
            simp only [Nat.add_zero]
            omega
          | k + 1 =>
            have := hall k (by omega)
            have harg : i + 1 + k = i + (k + 1) := by omega
            rw [harg] at this
            exact this
        · intro hall k hk
          have := hall (k + 1) (by omega)
          have harg : i + (k + 1) = i + 1 + k := by omega
          rw [harg] at this
          exact this
    · rw [if_neg h]
      simp only [true_iff]
      intro k hk
      omega

/-- C5: the Page Readiness Detector.  Polling passes over the five named
regions happen at 1.5-unit intervals (pass `k` starts at elapsed time
`1.5 * k`, i.e. tick `15 * k`) until the deadline of `timeout_s` units
(tick `10 * timeout_s`, default 20 units).  The detector reports ready
exactly when some pass inside the deadline counts at least 2 of the 5
regions with a currency-marked value, and reports not-ready exactly when
every pass inside the deadline counts fewer than 2. -/
theorem C5_wait_for_data (q : Nat → PyStr → Option PyStr) (timeout_s : Nat) :
    (_wait_for_data q timeout_s = true ↔
      ∃ k, 15 * k < 10 * timeout_s ∧ 2 ≤ foundCount q k) ∧
    (_wait_for_data q timeout_s = false ↔
      ∀ k, 15 * k < 10 * timeout_s → foundCount q k < 2) := by
  have h := waitGo_false_iff q (10 * timeout_s) 0 0
  simp only [Nat.zero_add] at h
  constructor
  · constructor
    · intro htrue
      by_contra hno
      push_neg at hno
      have hfalse : waitGo q (10 * timeout_s) 0 0 = false := by
        rw [h]
        intro k hk
        exact hno k hk
      rw [_wait_for_data] at htrue
      rw [htrue] at hfalse
      cases hfalse
    · intro ⟨k, hk, h2⟩
      rw [_wait_for_data]
      cases hb : waitGo q (10 * timeout_s) 0 0
      · exfalso
        have := (h.mp hb) k hk
        omega
      · rfl
  · exact h

lemma runBody_inv (c d : PyStr) (pr : PageRun) :
    ∀ r, runBody c d pr = .ok r ∨ runBody c d pr = .error r →
      r.CODE = c ∧ r.STATUS = "Success".data := by
  unfold runBody
  repeat' split
  all_goals
    intro r hr
    rcases hr with h | h <;> cases h <;> simp [initRecord]

lemma emittedRecord_CODE (c d : PyStr) (pr : PageRun) :
    (emittedRecord c d pr).CODE = c := by
  unfold emittedRecord
  cases hb : runBody c d pr with
  | ok r => exact (runBody_inv c d pr r (Or.inl hb)).1
  | error r => simpa using (runBody_inv c d pr r (Or.inr hb)).1

lemma emittedRecord_STATUS (c d : PyStr) (pr : PageRun) :
    (emittedRecord c d pr).STATUS = "Success".data ∨
      (emittedRecord c d pr).STATUS = "Error".data := by
  unfold emittedRecord
  cases hb : runBody c d pr with
  | ok r => exact Or.inl (runBody_inv c d pr r (Or.inl hb)).2
  | error r => exact Or.inr rfl

lemma countP_split {α : Type} (p : α → Bool) (l : List α) :
    l.countP p + l.countP (fun a => !(p a)) = l.length := by
  induction l with
  | nil => simp
  | cons x xs ih => by_cases hx : p x <;> simp [List.countP_cons, hx] <;> omega

lemma scrape_worker_fold (env : PyStr → PageRun) (date : PyStr) :
    ∀ (codes : List PyStr) (acc : WorkerResult),
      codes.foldl
        (fun acc code =>
          match runBody code date (env code) with
          | .ok r =>
            { acc with successCount := acc.successCount + 1, written := acc.written ++ [r] }
          | .error r =>
            let r2 : Record := { r with STATUS := "Error".data }
            { acc with failCount := acc.failCount + 1, written := acc.written ++ [r2] })
        acc =
      { successCount := acc.successCount
          + codes.countP (fun c => (runBody c date (env c)).isOk),
        failCount := acc.failCount
          + codes.countP (fun c => !(runBody c date (env c)).isOk),
        written := acc.written ++ codes.map (fun c => emittedRecord c date (env c)) } := by
  intro codes
  induction codes with
  | nil => intro acc; simp
  | cons c cs ih =>
    intro acc
    simp only [List.foldl_cons, List.countP_cons, List.map_cons]
    cases hb : runBody c date (env c) with
    | ok r =>
      rw [ih]
      have he : emittedRecord c date (env c) = r := by
        unfold emittedRecord
        rw [hb]
      simp [hb, he, Except.isOk, Except.toBool]
      omega
    | error r =>
      rw [ih]
      have he : emittedRecord c date (env c) = { r with STATUS := "Error".data } := by
        unfold emittedRecord
        rw [hb]
      simp [hb, he, Except.isOk, Except.toBool]
      omega

/-- C3: the Scrape Worker loop.  Whatever each identifier's page visit
does — navigation error, 404 detection, readiness deadline, a raised
region query, or normal extraction — the worker emits exactly one Record
per identifier, in partition order and carrying that identifier as its
code, each with `Success` or `Error` status; the reported pair counts the
ok iterations and the raised iterations, so its sum is the partition
length. -/
theorem C3_worker_per_identifier (codes : List PyStr) (env : PyStr → PageRun)
    (date : PyStr) :
    (scrape_worker codes env date).successCount
        + (scrape_worker codes env date).failCount = codes.length ∧
    (scrape_worker codes env date).written.map Record.CODE = codes ∧
    (∀ r ∈ (scrape_worker codes env date).written,
      r.STATUS = "Success".data ∨ r.STATUS = "Error".data) ∧
    (scrape_worker codes env date).successCount
      = codes.countP (fun c => (runBody c date (env c)).isOk) := by
  have h := scrape_worker_fold env date codes ⟨0, 0, []⟩
  rw [show scrape_worker codes env date
      = codes.foldl
        (fun acc code =>
          match runBody code date (env code) with
          | .ok r =>
            { acc with successCount := acc.successCount + 1, written := acc.written ++ [r] }
          | .error r =>
            let r2 : Record := { r with STATUS := "Error".data }
            { acc with failCount := acc.failCount + 1, written := acc.written ++ [r2] })
        ⟨0, 0, []⟩ from rfl]
  rw [h]
  have hsplit := countP_split (fun c => (runBody c date (env c)).isOk) codes
  refine ⟨?_, ?_, ?_, ?_⟩
  · show 0 + codes.countP (fun c => (runBody c date (env c)).isOk)
        + (0 + codes.countP (fun c => !(runBody c date (env c)).isOk)) = codes.length
    omega
  · show ([] ++ codes.map (fun c => emittedRecord c date (env c))).map Record.CODE = codes
    rw [List.nil_append, List.map_map]
    have hcomp : (Record.CODE ∘ fun c => emittedRecord c date (env c)) = fun c => c := by
      funext c
      exact emittedRecord_CODE c date (env c)
    rw [hcomp]
    exact List.map_id codes
  · intro r hr
    have hr2 : r ∈ [] ++ codes.map (fun c => emittedRecord c date (env c)) := hr
    simp only [List.nil_append, List.mem_map] at hr2
    obtain ⟨c, -, rfl⟩ := hr2
    exact emittedRecord_STATUS c date (env c)
  · show 0 + codes.countP (fun c => (runBody c date (env c)).isOk)
        = codes.countP (fun c => (runBody c date (env c)).isOk)
    omega

lemma foldl_digits (l : PyStr) :
    ∀ a : Nat, l.foldl (fun acc c => 10 * acc + digVal c) a
      = a * 10 ^ l.length + digitsToNat l := by
  induction l with
  | nil => intro a; simp [digitsToNat]
  | cons c cs ih =>
    intro a
    have hc : digitsToNat (c :: cs) = digVal c * 10 ^ cs.length + digitsToNat cs := by
      show List.foldl (fun acc c => 10 * acc + digVal c) (10 * 0 + digVal c) cs = _
      rw [ih (10 * 0 + digVal c)]
      ring_nf
    simp only [List.foldl_cons, List.length_cons, hc]
    rw [ih (10 * a + digVal c)]
    rw [pow_succ]
    ring

lemma natDigitsGo_mem :
    ∀ (fuel n : Nat) (acc : PyStr),
      (∀ c ∈ acc, c ∈ ['0', '1', '2', '3', '4', '5', '6', '7', '8', '9']) →
      ∀ c ∈ natDigitsGo fuel n acc, c ∈ ['0', '1', '2', '3', '4', '5', '6', '7', '8', '9'] := by
  intro fuel
  induction fuel with
  | zero => intro n acc hacc; simpa [natDigitsGo] using hacc
  | succ fuel ih =>
    intro n acc hacc
    match n with
    | 0 => simpa [natDigitsGo] using hacc
    | m + 1 =>
      show ∀ c ∈ natDigitsGo fuel ((m + 1) / 10) (Char.ofNat (48 + (m + 1) % 10) :: acc), _
      apply ih
      intro c hc
      rw [List.mem_cons] at hc
      rcases hc with hc | hc
      · subst hc
        have hr : (m + 1) % 10 < 10 := Nat.mod_lt _ (by omega)
        set r := (m + 1) % 10 with hrdef
        clear hrdef
        interval_cases r <;> decide
      · exact hacc c hc

lemma digVal_ofNat {r : Nat} (hr : r < 10) : digVal (Char.ofNat (48 + r)) = r := by
  interval_cases r <;> decide

lemma natDigitsGo_val :
    ∀ (fuel n : Nat) (acc : PyStr), n < fuel →
      digitsToNat (natDigitsGo fuel n acc) = n * 10 ^ acc.length + digitsToNat acc := by
  intro fuel
  induction fuel with
  | zero => intro n acc h; omega
  | succ fuel ih =>
    intro n acc h
    match n with
    | 0 => simp [natDigitsGo]
    | m + 1 =>
      show digitsToNat (natDigitsGo fuel ((m + 1) / 10) (Char.ofNat (48 + (m + 1) % 10) :: acc)) = _
      have hlt : (m + 1) / 10 < fuel := by
        have := Nat.div_lt_self (show 0 < m + 1 by omega) (show 1 < 10 by omega)
        omega
      rw [ih _ _ hlt]
      have hcons : digitsToNat (Char.ofNat (48 + (m + 1) % 10) :: acc)
          = ((m + 1) % 10) * 10 ^ acc.length + digitsToNat acc := by
        show List.foldl (fun acc c => 10 * acc + digVal c)
            (10 * 0 + digVal (Char.ofNat (48 + (m + 1) % 10))) acc = _
        rw [foldl_digits]
        rw [digVal_ofNat (Nat.mod_lt _ (by omega))]
        ring_nf
      rw [hcons]
      simp only [List.length_cons, pow_succ]
      have hdm := Nat.div_add_mod (m + 1) 10
      set q := (m + 1) / 10
      set r := (m + 1) % 10
      calc q * (10 ^ acc.length * 10) + (r * 10 ^ acc.length + digitsToNat acc)
          = (10 * q + r) * 10 ^ acc.length + digitsToNat acc := by ring
        _ = (m + 1) * 10 ^ acc.length + digitsToNat acc := by rw [hdm]

lemma natDigitsGo_suffix :
    ∀ (fuel n : Nat) (acc : PyStr),
      ∃ ds, natDigitsGo fuel n acc = ds ++ acc ∧ (n ≠ 0 → 0 < fuel → ds ≠ []) := by
  intro fuel
  induction fuel with
  | zero => intro n acc; exact ⟨[], rfl, fun _ h => absurd h (by omega)⟩
  | succ fuel ih =>
    intro n acc
    match n with
    | 0 => exact ⟨[], rfl, fun h _ => absurd rfl h⟩
    | m + 1 =>
      obtain ⟨ds2, hds2, -⟩ := ih ((m + 1) / 10) (Char.ofNat (48 + (m + 1) % 10) :: acc)
      refine ⟨ds2 ++ [Char.ofNat (48 + (m + 1) % 10)], ?_, fun _ _ => by simp⟩
      show natDigitsGo fuel ((m + 1) / 10) (Char.ofNat (48 + (m + 1) % 10) :: acc) = _
      rw [hds2]
      simp

lemma natToStr_mem (n : Nat) :
    ∀ c ∈ natToStr n, c ∈ ['0', '1', '2', '3', '4', '5', '6', '7', '8', '9'] := by
  unfold natToStr
  by_cases h : n = 0
  · rw [if_pos h]
    intro c hc
    simp at hc
    simp [hc]
  · rw [if_neg h]
    exact natDigitsGo_mem (n + 1) n [] (by simp)

lemma natToStr_ne_nil (n : Nat) : natToStr n ≠ [] := by
  unfold natToStr
  by_cases h : n = 0
  · rw [if_pos h]; simp
  · rw [if_neg h]
    obtain ⟨ds, hds, hne⟩ := natDigitsGo_suffix (n + 1) n []
    rw [hds]
    have := hne h (by omega)
    simpa using this

lemma digitsToNat_natToStr (n : Nat) : digitsToNat (natToStr n) = n := by
  unfold natToStr
  by_cases h : n = 0
  · rw [if_pos h, h]; decide
  · rw [if_neg h]
    have := natDigitsGo_val (n + 1) n [] (by omega)
    simpa [digitsToNat] using this

lemma digitChar_props {c : Char}
    (h : c ∈ ['0', '1', '2', '3', '4', '5', '6', '7', '8', '9']) :
    isDig c = true ∧ isWs c = false ∧ c ≠ '-' ∧ c ≠ '+' ∧ c ≠ '#' ∧
      c ≠ 'e' ∧ c ≠ '.' := by
  fin_cases h <;> refine ⟨by decide, by decide, by decide, by decide, by decide, by decide, by decide⟩

lemma dropWhile_eq_self_of_none {p : Char → Bool} {cs : PyStr}
    (h : ∀ c ∈ cs, p c = false) : cs.dropWhile p = cs := by
  cases cs with
  | nil => rfl
  | cons c cs => simp [List.dropWhile_cons, h c (by simp)]

lemma pyStrip_eq_self {cs : PyStr} (h : ∀ c ∈ cs, isWs c = false) :
    pyStrip cs = cs := by
  unfold pyStrip
  rw [dropWhile_eq_self_of_none h]
  rw [dropWhile_eq_self_of_none (by intro c hc; exact h c (by simpa using hc))]
  simp

lemma pyIntParse_natToStr (n : Nat) : pyIntParse (natToStr n) = some (n : Int) := by
  unfold pyIntParse
  have hstrip : pyStrip (natToStr n) = natToStr n :=
    pyStrip_eq_self (fun c hc => (digitChar_props (natToStr_mem n c hc)).2.1)
  rw [hstrip]
  rcases hcs : natToStr n with - | ⟨c, rest⟩
  · exact absurd hcs (natToStr_ne_nil n)
  · have hmem : ∀ x ∈ c :: rest, x ∈ ['0', '1', '2', '3', '4', '5', '6', '7', '8', '9'] := by
      rw [← hcs]
      exact natToStr_mem n
    have hcne : c ≠ '-' ∧ c ≠ '+' := by
      have := digitChar_props (hmem c (by simp))
      exact ⟨this.2.2.1, this.2.2.2.1⟩
    have hval : digitsToNat (c :: rest) = n := by
      rw [← hcs]
      exact digitsToNat_natToStr n
    have hdig : (c :: rest).all isDig = true := by
      rw [List.all_eq_true]
      intro x hx
      exact (digitChar_props (hmem x hx)).1
    split
    · rename_i heq
      exact absurd (List.head_eq_of_cons_eq heq.symm).symm hcne.1
    · rename_i heq
      exact absurd (List.head_eq_of_cons_eq heq.symm).symm hcne.2
    · rw [if_pos ⟨by simp, hdig⟩, hval]

lemma pyIntParse_intToStr (i : Int) : pyIntParse (intToStr i) = some i := by
  unfold intToStr
  by_cases h : i < 0
  · rw [if_pos h]
    unfold pyIntParse
    have hmem := natToStr_mem i.natAbs
    have hstrip : pyStrip ('-' :: natToStr i.natAbs) = '-' :: natToStr i.natAbs := by
      apply pyStrip_eq_self
      intro c hc
      rw [List.mem_cons] at hc
      rcases hc with hc | hc
      · subst hc; decide
      · exact (digitChar_props (hmem c hc)).2.1
    rw [hstrip]
    have hdig : (natToStr i.natAbs).all isDig = true := by
      rw [List.all_eq_true]
      intro x hx
      exact (digitChar_props (hmem x hx)).1
    show (if natToStr i.natAbs ≠ [] ∧ (natToStr i.natAbs).all isDig
        then some (-(digitsToNat (natToStr i.natAbs) : Int)) else none) = some i
    rw [if_pos ⟨natToStr_ne_nil _, hdig⟩, digitsToNat_natToStr]
    congr 1
    omega
  · rw [if_neg h]
    rw [pyIntParse_natToStr]
    congr 1
    omega

lemma splitFirst_not_mem {sep : Char} {cs : PyStr} (h : sep ∉ cs) :
    splitFirst sep cs = none := by
  induction cs with
  | nil => rfl
  | cons c cs ih =>
    have hc : c ≠ sep := by
      intro he
      exact h (by simp [he])
    simp only [splitFirst]
    rw [if_neg (by simp [hc])]
    rw [ih (fun hm => h (by simp [hm]))]

lemma splitFirst_append {sep : Char} {xs : PyStr} (ys : PyStr)
    (h : ∀ c ∈ xs, c ≠ sep) :
    splitFirst sep (xs ++ sep :: ys) = some (xs, ys) := by
  induction xs with
  | nil =>
    simp only [List.nil_append, splitFirst]
    rw [if_pos (by simp)]
  | cons c cs ih =>
    simp only [List.cons_append, splitFirst]
    have hc : c ≠ sep := h c (by simp)
    rw [if_neg (by simp [hc])]
    show (match splitFirst sep (cs ++ sep :: ys) with
      | none => none
      | some (l, r) => some (c :: l, r)) = some (c :: cs, ys)
    rw [ih (fun x hx => h x (by simp [hx]))]

lemma loadGo_ok (lines : List PyStr) :
    ∀ acc, (∀ l ∈ lines, (processLine l).isOk = true) →
      loadGo lines acc = .ok (acc ++ (lines.map lineCodes).flatten) := by
  induction lines with
  | nil => intro acc h; simp [loadGo]
  | cons l ls ih =>
    intro acc h
    have hl := h l (by simp)
    simp only [loadGo]
    cases hp : processLine l with
    | error e =>
      rw [hp] at hl
      simp [Except.isOk, Except.toBool] at hl
    | ok new =>
      show loadGo ls (acc ++ new) = Except.ok (acc ++ (List.map lineCodes (l :: ls)).flatten)
      rw [ih (acc ++ new) (fun x hx => h x (by simp [hx]))]
      simp [lineCodes, hp]

lemma loadGo_error (lines : List PyStr) :
    ∀ acc, (∃ l ∈ lines, (processLine l).isOk = false) →
      ∃ msg, loadGo lines acc = .error msg := by
  induction lines with
  | nil => intro acc h; simp at h
  | cons l ls ih =>
    intro acc h
    simp only [loadGo]
    cases hp : processLine l with
    | error e => exact ⟨e, rfl⟩
    | ok new =>
      apply ih
      obtain ⟨x, hx, hbad⟩ := h
      rw [List.mem_cons] at hx
      rcases hx with rfl | hx
      · rw [hp] at hbad
        simp [Except.isOk, Except.toBool] at hbad
      · exact ⟨x, hx, hbad⟩

lemma rangeLine_no_ws (a b : Nat) :
    ∀ c ∈ natToStr a ++ '-' :: natToStr b, isWs c = false := by
  intro c hc
  rw [List.mem_append] at hc
  rcases hc with hc | hc
  · exact (digitChar_props (natToStr_mem a c hc)).2.1
  · rw [List.mem_cons] at hc
    rcases hc with rfl | hc
    · decide
    · exact (digitChar_props (natToStr_mem b c hc)).2.1

/-- C8: the range-file loader.  Blank lines and `#` lines contribute
nothing, every canonical `start-end` line expands to the `end - start`
identifiers `start .. end-1` exactly when `start < end` and is otherwise
rejected, and one malformed line anywhere fails the whole load with an
error instead of producing any identifier list. -/
theorem C8_range_loader (lines : List PyStr) :
    ((∀ l ∈ lines, (processLine l).isOk = true) →
      load_stock_codes_from_file lines = .ok ((lines.map lineCodes).flatten)) ∧
    ((∃ l ∈ lines, (processLine l).isOk = false) →
      ∃ msg, load_stock_codes_from_file lines = .error msg) ∧
    (∀ a b : Nat,
      processLine (natToStr a ++ '-' :: natToStr b) =
        if a < b then .ok ((List.range (b - a)).map (fun i => natToStr (a + i)))
        else .error ("Invalid range (start >= end): ".data
          ++ (natToStr a ++ '-' :: natToStr b))) := by
  refine ⟨fun h => loadGo_ok lines [] h, fun h => loadGo_error lines [] h, ?_⟩
  intro a b
  have hstrip : pyStrip (natToStr a ++ '-' :: natToStr b) = natToStr a ++ '-' :: natToStr b :=
    pyStrip_eq_self (rangeLine_no_ws a b)
  unfold processLine
  rw [hstrip]
  rw [if_neg (by simp [natToStr_ne_nil a])]
  rcases hcs : natToStr a with - | ⟨c, cs0⟩
  · exact absurd hcs (natToStr_ne_nil a)
  have hcd : c ≠ '#' := by
    have hm : c ∈ natToStr a := by
      rw [hcs]
      simp
    exact (digitChar_props (natToStr_mem a c hm)).2.2.2.2.1
  rw [if_neg (by simp [startsW, hcd, Ne.symm hcd])]
  have hmemd : '-' ∈ (c :: cs0) ++ '-' :: natToStr b := by simp
  rw [if_neg (by simp)]
  have hsplit : splitFirst '-' ((c :: cs0) ++ '-' :: natToStr b)
      = some (c :: cs0, natToStr b) := by
    apply splitFirst_append
    intro x hx
    rw [← hcs] at hx
    exact (digitChar_props (natToStr_mem a x hx)).2.2.1
  rw [hsplit]
  rw [show (c :: cs0 : PyStr) = natToStr a from hcs.symm]
  show (match pyIntParse (natToStr a), pyIntParse (natToStr b) with
    | some start, some e =>
      if start ≥ e then
        Except.error ("Invalid range (start >= end): ".data ++ (natToStr a ++ '-' :: natToStr b))
      else Except.ok ((List.range (e - start).toNat).map
        (fun i : Nat => intToStr (start + (i : Int))))
    | _, _ =>
      Except.error ("Invalid integers in line: ".data ++ (natToStr a ++ '-' :: natToStr b)))
    = _
  rw [pyIntParse_natToStr a, pyIntParse_natToStr b]
  show (if (a : Int) ≥ (b : Int) then
      Except.error ("Invalid range (start >= end): ".data ++ (natToStr a ++ '-' :: natToStr b))
    else Except.ok ((List.range ((b : Int) - (a : Int)).toNat).map
      (fun i : Nat => intToStr ((a : Int) + (i : Int))))) = _
  by_cases hab : a < b
  · rw [if_neg (by omega), if_pos hab]
    have hr : ((b : Int) - (a : Int)).toNat = b - a := by omega
    rw [hr]
    congr 1
  · rw [if_pos (by omega), if_neg hab]

/-- C8 witness: the spec examples; the line 100-105 expands to the five
identifiers 100..104, while lines abc-5 and 200-200 each fail the whole
load. -/
theorem C8_range_loader_witness :
    (∀ l ∈ ["100-105".data], (processLine l).isOk = true) ∧
    load_stock_codes_from_file ["100-105".data]
      = .ok ["100".data, "101".data, "102".data, "103".data, "104".data] ∧
    (∃ msg, load_stock_codes_from_file ["abc-5".data] = .error msg) ∧
    (∃ msg, load_stock_codes_from_file ["200-200".data] = .error msg) := by
  refine ⟨by decide, ?_, ?_, ?_⟩
  · have h := (C8_range_loader ["100-105".data]).1 (by decide)
    rw [h]
    decide
  · exact (C8_range_loader ["abc-5".data]).2.1 ⟨"abc-5".data, by simp, by decide⟩
  · exact (C8_range_loader ["200-200".data]).2.1 ⟨"200-200".data, by simp, by decide⟩

lemma lexLe_total : ∀ a b : PyStr, lexLe a b = true ∨ lexLe b a = true := by
  intro a
  induction a with
  | nil => intro b; left; rfl
  | cons x xs ih =>
    intro b
    cases b with
    | nil => right; rfl
    | cons y ys =>
      simp only [lexLe]
      by_cases h1 : x.toNat < y.toNat
      · left
        rw [if_pos h1]
      · by_cases h2 : y.toNat < x.toNat
        · right
          rw [if_pos h2]
        · rw [if_neg h1, if_neg h2, if_neg h2, if_neg h1]
          exact ih ys

lemma lexLe_trans :
    ∀ a b c : PyStr, lexLe a b = true → lexLe b c = true → lexLe a c = true := by
  intro a
  induction a with
  | nil => intro b c _ _; rfl
  | cons x xs ih =>
    intro b c hab hbc
    cases b with
    | nil => simp [lexLe] at hab
    | cons y ys =>
      cases c with
      | nil => simp [lexLe] at hbc
      | cons z zs =>
        simp only [lexLe] at hab hbc ⊢
        by_cases h1 : x.toNat < y.toNat
        · by_cases h3 : z.toNat < y.toNat
          · rw [if_neg (by omega), if_pos h3] at hbc
            cases hbc
          · rw [if_pos (by omega)]
        · by_cases h4 : y.toNat < x.toNat
          · rw [if_neg h1, if_pos h4] at hab
            cases hab
          · rw [if_neg h1, if_neg h4] at hab
            by_cases h2 : y.toNat < z.toNat
            · rw [if_pos (by omega)]
            · by_cases h3 : z.toNat < y.toNat
              · rw [if_neg h2, if_pos h3] at hbc
                cases hbc
              · rw [if_neg h2, if_neg h3] at hbc
                rw [if_neg (by omega), if_neg (by omega)]
                exact ih ys zs hab hbc

lemma digits_no_e_dot {s : PyStr} (hdig : s.all isDig = true) :
    splitFirst 'e' s = none ∧ splitFirst '.' s = none := by
  rw [List.all_eq_true] at hdig
  constructor
  · apply splitFirst_not_mem
    intro hm
    have := hdig _ hm
    simp [isDig] at this
  · apply splitFirst_not_mem
    intro hm
    have := hdig _ hm
    simp [isDig] at this

lemma pdMantOk_of_digits {s : PyStr} (hne : s ≠ []) (hdig : s.all isDig = true) :
    pdMantOk s = true := by
  unfold pdMantOk
  rw [(digits_no_e_dot hdig).2]
  simp [hne, hdig]

lemma pyIntParse_isSome_pdNumeric {cs : PyStr}
    (h : (pyIntParse cs).isSome = true) : pdNumericStr cs = true := by
  unfold pyIntParse at h
  unfold pdNumericStr
  generalize hg : pyStrip cs = s at h ⊢
  clear hg
  split at h
  · rename_i rest
    rw [show pdStripSign ('-' :: rest) = rest from rfl]
    by_cases hcond : rest ≠ [] ∧ rest.all isDig = true
    · rw [(digits_no_e_dot hcond.2).1]
      exact pdMantOk_of_digits hcond.1 hcond.2
    · rw [if_neg hcond] at h
      simp at h
  · rename_i rest
    rw [show pdStripSign ('+' :: rest) = rest from rfl]
    by_cases hcond : rest ≠ [] ∧ rest.all isDig = true
    · rw [(digits_no_e_dot hcond.2).1]
      exact pdMantOk_of_digits hcond.1 hcond.2
    · rw [if_neg hcond] at h
      simp at h
  · rename_i x hne1 hne2
    by_cases hcond : s ≠ [] ∧ s.all isDig = true
    · rcases s with - | ⟨c, r⟩
      · exact absurd rfl hcond.1
      · have hcdig : isDig c = true := by
          have hall := hcond.2
          rw [List.all_eq_true] at hall
          exact hall c (by simp)
        have hsign : pdStripSign (c :: r) = c :: r := by
          unfold pdStripSign
          split
          · rename_i heq
            rw [List.cons.injEq] at heq
            rw [heq.1] at hcdig
            simp [isDig] at hcdig
          · rename_i heq
            rw [List.cons.injEq] at heq
            rw [heq.1] at hcdig
            simp [isDig] at hcdig
          · rfl
        rw [hsign, (digits_no_e_dot hcond.2).1]
        exact pdMantOk_of_digits hcond.1 hcond.2
    · rw [if_neg hcond] at h
      simp at h

/-- C4: the Finalizer sort.  On rows loaded from an existing Intermediate
Store, when every code parses as an integer the output is a permutation of
the (code-canonicalized) rows sorted by integer code value ascending; when
some code is not numeric the whole set is instead sorted lexicographically
ascending by code string; both regimes produce output rather than
failing. -/
theorem C4_finalize_sort (rows : List CsvRow) :
    ((∀ r ∈ rows, (pyIntParse r.CODE).isSome = true) →
      ∃ out, sort_and_finalize_csv rows = some out ∧
        List.Sorted rowIntLe out ∧ out.Perm (rows.map normalizeRow)) ∧
    ((∃ r ∈ rows, pdNumericStr r.CODE = false) →
      ∃ out, sort_and_finalize_csv rows = some out ∧
        List.Sorted rowLexLe out ∧ out.Perm rows) := by
  constructor
  · intro h
    refine ⟨(rows.map normalizeRow).insertionSort rowIntLe, ?_, ?_, ?_⟩
    · unfold sort_and_finalize_csv
      rw [if_pos (by rw [List.all_eq_true]; exact h)]
    · letI : IsTotal CsvRow rowIntLe := ⟨fun r s => Int.le_total _ _⟩
      letI : IsTrans CsvRow rowIntLe := ⟨fun a b c hab hbc => le_trans hab hbc⟩
      exact List.sorted_insertionSort rowIntLe _
    · exact List.perm_insertionSort rowIntLe _
  · intro h
    obtain ⟨r0, hr0, hbad⟩ := h
    have hnotall : ¬ (rows.all (fun r => (pyIntParse r.CODE).isSome) = true) := by
      rw [List.all_eq_true]
      intro hall
      have := hall r0 hr0
      rw [pyIntParse_isSome_pdNumeric this] at hbad
      cases hbad
    have hany : rows.any (fun r => !(pdNumericStr r.CODE)) = true := by
      rw [List.any_eq_true]
      exact ⟨r0, hr0, by simp [hbad]⟩
    refine ⟨rows.insertionSort rowLexLe, ?_, ?_, ?_⟩
    · unfold sort_and_finalize_csv
      rw [if_neg hnotall, if_pos hany]
    · letI : IsTotal CsvRow rowLexLe := ⟨fun r s => lexLe_total r.CODE s.CODE⟩
      letI : IsTrans CsvRow rowLexLe :=
        ⟨fun a b c hab hbc => lexLe_trans a.CODE b.CODE c.CODE hab hbc⟩
      exact List.sorted_insertionSort rowLexLe _
    · exact List.perm_insertionSort rowLexLe _

/-- C4 witness: codes 10, 2, 1 sort numerically to 1, 2, 10 (not the
lexical 1, 10, 2), and a non-numeric code among numeric ones makes the
whole set sort lexically instead of failing. -/
theorem C4_finalize_sort_witness :
    (∀ r ∈ ([⟨"10".data, []⟩, ⟨"2".data, []⟩, ⟨"1".data, []⟩] : List CsvRow),
      (pyIntParse r.CODE).isSome = true) ∧
    (∃ out, sort_and_finalize_csv
        ([⟨"10".data, []⟩, ⟨"2".data, []⟩, ⟨"1".data, []⟩] : List CsvRow) = some out ∧
      List.Sorted rowIntLe out ∧
      out.Perm (([⟨"10".data, []⟩, ⟨"2".data, []⟩, ⟨"1".data, []⟩] : List CsvRow).map normalizeRow)) ∧
    sort_and_finalize_csv ([⟨"10".data, []⟩, ⟨"2".data, []⟩, ⟨"1".data, []⟩] : List CsvRow)
      = some [⟨"1".data, []⟩, ⟨"2".data, []⟩, ⟨"10".data, []⟩] ∧
    (∃ r ∈ ([⟨"2".data, []⟩, ⟨"abc".data, []⟩, ⟨"10".data, []⟩] : List CsvRow),
      pdNumericStr r.CODE = false) ∧
    (∃ out, sort_and_finalize_csv
        ([⟨"2".data, []⟩, ⟨"abc".data, []⟩, ⟨"10".data, []⟩] : List CsvRow) = some out ∧
      List.Sorted rowLexLe out ∧
      out.Perm ([⟨"2".data, []⟩, ⟨"abc".data, []⟩, ⟨"10".data, []⟩] : List CsvRow)) ∧
    sort_and_finalize_csv ([⟨"2".data, []⟩, ⟨"abc".data, []⟩, ⟨"10".data, []⟩] : List CsvRow)
      = some [⟨"10".data, []⟩, ⟨"2".data, []⟩, ⟨"abc".data, []⟩] := by
  refine ⟨by decide, ?_, by decide, ?_, ?_, by decide⟩
  · exact (C4_finalize_sort _).1 (by decide)
  · exact ⟨⟨"abc".data, []⟩, by simp, by decide⟩
  · exact (C4_finalize_sort _).2 ⟨⟨"abc".data, []⟩, by simp, by decide⟩

lemma upChar_eq_B (c : Char) : upChar c = 'B' ↔ c = 'b' ∨ c = 'B' := by
  unfold upChar
  by_cases h : 97 ≤ c.toNat ∧ c.toNat ≤ 122
  · rw [if_pos h]
    obtain ⟨h1, h2⟩ := h
    constructor
    · intro he
      left
      apply char_toNat_inj
      show c.toNat = Char.toNat 'b'
      obtain ⟨n, hn⟩ : ∃ n, c.toNat = n := ⟨_, rfl⟩
      rw [hn] at h1 h2 he ⊢
      interval_cases n <;> revert he <;> decide
    · intro he
      rcases he with rfl | rfl
      · decide
      · exact absurd h1 (by decide)
  · rw [if_neg h]
    constructor
    · intro he
      exact Or.inr he
    · intro he
      rcases he with rfl | rfl
      · exact absurd ⟨by decide, by decide⟩ h
      · rfl

lemma upChar_eq_M (c : Char) : upChar c = 'M' ↔ c = 'm' ∨ c = 'M' := by
  unfold upChar
  by_cases h : 97 ≤ c.toNat ∧ c.toNat ≤ 122
  · rw [if_pos h]
    obtain ⟨h1, h2⟩ := h
    constructor
    · intro he
      left
      apply char_toNat_inj
      show c.toNat = Char.toNat 'm'
      obtain ⟨n, hn⟩ : ∃ n, c.toNat = n := ⟨_, rfl⟩
      rw [hn] at h1 h2 he ⊢
      interval_cases n <;> revert he <;> decide
    · intro he
      rcases he with rfl | rfl
      · decide
      · exact absurd h1 (by decide)
  · rw [if_neg h]
    constructor
    · intro he
      exact Or.inr he
    · intro he
      rcases he with rfl | rfl
      · exact absurd ⟨by decide, by decide⟩ h
      · rfl

lemma upChar_eq_K (c : Char) : upChar c = 'K' ↔ c = 'k' ∨ c = 'K' := by
  unfold upChar
  by_cases h : 97 ≤ c.toNat ∧ c.toNat ≤ 122
  · rw [if_pos h]
    obtain ⟨h1, h2⟩ := h
    constructor
    · intro he
      left
      apply char_toNat_inj
      show c.toNat = Char.toNat 'k'
      obtain ⟨n, hn⟩ : ∃ n, c.toNat = n := ⟨_, rfl⟩
      rw [hn] at h1 h2 he ⊢
      interval_cases n <;> revert he <;> decide
    · intro he
      rcases he with rfl | rfl
      · decide
      · exact absurd h1 (by decide)
  · rw [if_neg h]
    constructor
    · intro he
      exact Or.inr he
    · intro he
      rcases he with rfl | rfl
      · exact absurd ⟨by decide, by decide⟩ h
      · rfl

lemma pyUpper_contains_iff (cs : PyStr) (U L : Char)
    (hiff : ∀ c, upChar c = U ↔ c = L ∨ c = U) :
    (pyUpper cs).contains U = true ↔ ∃ c ∈ cs, c = L ∨ c = U := by
  unfold pyUpper
  rw [List.contains_eq_any_beq, List.any_map, List.any_eq_true]
  constructor
  · intro ⟨c, hc, hb⟩
    refine ⟨c, hc, ?_⟩
    rw [(hiff c).symm]
    have hb2 : U = upChar c := by simpa [Function.comp] using hb
    exact hb2.symm
  · intro ⟨c, hc, ho⟩
    refine ⟨c, hc, ?_⟩
    have h2 : U = upChar c := ((hiff c).mpr ho).symm
    simpa [Function.comp] using h2

/-- C10: volume suffix detection.  The scale factor is chosen from the
upper-cased whole fragment, not from a suffix position, with precedence B
over M over K: any letter b (either case) anywhere selects the billion
factor even when m or k adjoins the number; otherwise any m selects the
million factor; otherwise any k selects the thousand factor. -/
theorem C10_volume_suffix_anywhere (text g : PyStr)
    (hnum : numSearch text = some g) :
    ((∃ c ∈ text, c = 'b' ∨ c = 'B') →
      _parse_volume_scale text = some (g, 1000000000)) ∧
    (¬ (∃ c ∈ text, c = 'b' ∨ c = 'B') → (∃ c ∈ text, c = 'm' ∨ c = 'M') →
      _parse_volume_scale text = some (g, 1000000)) ∧
    (¬ (∃ c ∈ text, c = 'b' ∨ c = 'B') → ¬ (∃ c ∈ text, c = 'm' ∨ c = 'M') →
      (∃ c ∈ text, c = 'k' ∨ c = 'K') →
      _parse_volume_scale text = some (g, 1000)) := by
  have htne : text ≠ [] := by
    intro he
    rw [he] at hnum
    cases hnum
  have hB := pyUpper_contains_iff text 'B' 'b' upChar_eq_B
  have hM := pyUpper_contains_iff text 'M' 'm' upChar_eq_M
  have hK := pyUpper_contains_iff text 'K' 'k' upChar_eq_K
  refine ⟨?_, ?_, ?_⟩
  · intro hb
    unfold _parse_volume_scale
    rw [if_neg (by simpa using htne), hnum]
    show (some (g, if (pyUpper text).contains 'B' then 1000000000
        else if (pyUpper text).contains 'M' then 1000000
        else if (pyUpper text).contains 'K' then 1000
        else 1) : Option (PyStr × Nat)) = _
    rw [if_pos (hB.mpr hb)]
  · intro hnb hm
    unfold _parse_volume_scale
    rw [if_neg (by simpa using htne), hnum]
    show (some (g, if (pyUpper text).contains 'B' then 1000000000
        else if (pyUpper text).contains 'M' then 1000000
        else if (pyUpper text).contains 'K' then 1000
        else 1) : Option (PyStr × Nat)) = _
    rw [if_neg (fun hc => hnb (hB.mp hc)), if_pos (hM.mpr hm)]
  · intro hnb hnm hk
    unfold _parse_volume_scale
    rw [if_neg (by simpa using htne), hnum]
    show (some (g, if (pyUpper text).contains 'B' then 1000000000
        else if (pyUpper text).contains 'M' then 1000000
        else if (pyUpper text).contains 'K' then 1000
        else 1) : Option (PyStr × Nat)) = _
    rw [if_neg (fun hc => hnb (hB.mp hc)), if_neg (fun hc => hnm (hM.mp hc)),
      if_pos (hK.mpr hk)]

/-- C10 witness: in the fragment 2Mb an m directly follows the number, but
the b elsewhere in the fragment still selects the billion factor. -/
theorem C10_volume_suffix_anywhere_witness :
    numSearch "2Mb".data = some "2".data ∧
    (∃ c ∈ "2Mb".data, c = 'b' ∨ c = 'B') ∧
    _parse_volume_scale "2Mb".data = some ("2".data, 1000000000) := by
  refine ⟨by decide, ⟨'b', by decide, Or.inl rfl⟩, ?_⟩
  exact (C10_volume_suffix_anywhere "2Mb".data "2".data (by decide)).1
    ⟨'b', by decide, Or.inl rfl⟩

/-- C7: the claim examples hold (1.2B, 500K, 3.5M, the empty fragment, a
bare number), but the general rendering sentence fails on the code: for
the fragment 0.067B the exact scaled value is the whole number 67000000
(0.067 times 10^9), yet the binary64 arithmetic the code uses produces
the non-integral double 8992587776000001 * 2^(-27), so `is_integer` is
false and `_parse_volume` renders a decimal string instead of the integer
string 67000000 — in CPython, the string 67000000.00000001. -/
theorem C7_volume_float_bug :
    _parse_volume_double "0.067B".data = some ⟨8992587776000001, 25⟩ ∧
    dyadIsInt ⟨8992587776000001, 25⟩ = false ∧
    exactScaled "0.067B".data = some (67000000000, 1000) ∧
    67000000000 = 67000000 * 1000 ∧
    _parse_volume "0.067B".data ≠ "67000000".data ∧
    _parse_volume "1.2B".data = "1200000000".data ∧
    _parse_volume "500K".data = "500000".data ∧
    _parse_volume "3.5M".data = "3500000".data ∧
    _parse_volume "".data = "N/A".data ∧
    _parse_volume "123".data = "123".data := by
  refine ⟨by decide, by decide, by decide, by decide, by decide,
    by decide, by decide, by decide, by decide, by decide⟩

/-- C6: the rich-taxonomy classifier of src/script.py.  When navigation
succeeds, the page is not detected as invalid, the data-validity detector
reports ready, and all six extracted fields of the emitted Record equal
the sentinel, the Record's status is AllDataNA. -/
theorem C6_all_na_status (code date : PyStr) (pg : SelPage)
    (h1 : pg.navErr = false) (h2 : is_404_page pg = false)
    (h3 : validate_stock_page pg = true)
    (h4 : (scrape_stock_data code date pg).OPEN = "N/A".data ∧
      (scrape_stock_data code date pg).INTRADAY_HIGH = "N/A".data ∧
      (scrape_stock_data code date pg).INTRADAY_LOW = "N/A".data ∧
      (scrape_stock_data code date pg).CLOSE = "N/A".data ∧
      (scrape_stock_data code date pg).PE = "N/A".data ∧
      (scrape_stock_data code date pg).VOLUME = "N/A".data) :
    (scrape_stock_data code date pg).STATUS = "AllDataNA".data := by
  unfold scrape_stock_data at h4 ⊢
  rw [h1, h2, h3] at h4 ⊢
  rw [if_neg (by simp)] at h4 ⊢
  rw [if_neg (by simp)] at h4 ⊢
  rw [if_neg (by simp)] at h4 ⊢
  dsimp only [] at h4 ⊢
  split at h4
  · rename_i hc
    rw [if_pos hc]
  · rename_i hc
    exact absurd h4 hc

/-- C6 witness: a page that passes the 404 check and the validity check
(one indicator region shows a currency price) but whose every retried
field query times out, leaving all six fields at the sentinel. -/
theorem C6_all_na_status_witness :
    is_404_page ⟨false, "u".data, "t".data, "s".data, ["HK$1.23".data], [], [], [],
      none, none, none, none, none, none⟩ = false ∧
    validate_stock_page ⟨false, "u".data, "t".data, "s".data, ["HK$1.23".data], [], [], [],
      none, none, none, none, none, none⟩ = true ∧
    (scrape_stock_data "1".data "20260101".data
      ⟨false, "u".data, "t".data, "s".data, ["HK$1.23".data], [], [], [],
        none, none, none, none, none, none⟩).STATUS = "AllDataNA".data := by
  refine ⟨by decide, by decide, ?_⟩
  exact C6_all_na_status "1".data "20260101".data
    ⟨false, "u".data, "t".data, "s".data, ["HK$1.23".data], [], [], [],
      none, none, none, none, none, none⟩
    rfl (by decide) (by decide)
    ⟨by decide, by decide, by decide, by decide, by decide, by decide⟩

lemma startsW_iff (pat : PyStr) : ∀ cs : PyStr,
    startsW pat cs = true ↔ ∃ rest, cs = pat ++ rest := by
  induction pat with
  | nil =>
    intro cs
    simp [startsW]
  | cons p ps ih =>
    intro cs
    cases cs with
    | nil =>
      simp only [startsW]
      constructor
      · intro h; cases h
      · intro ⟨rest, hr⟩; cases hr
    | cons c cs =>
      simp only [startsW, Bool.and_eq_true, beq_iff_eq]
      rw [ih cs]
      constructor
      · intro ⟨hpc, rest, hr⟩
        exact ⟨rest, by simp [hpc, hr]⟩
      · intro ⟨rest, hr⟩
        rw [List.cons_append, List.cons.injEq] at hr
        exact ⟨hr.1.symm, rest, hr.2⟩

lemma takeWhile_all {p : Char → Bool} : ∀ l : PyStr, (∀ c ∈ l, p c = true) →
    l.takeWhile p = l ∧ l.dropWhile p = [] := by
  intro l
  induction l with
  | nil => intro h; exact ⟨rfl, rfl⟩
  | cons c cs ih =>
    intro h
    have hc : p c = true := h c (by simp)
    have := ih (fun x hx => h x (by simp [hx]))
    simp [List.takeWhile_cons, List.dropWhile_cons, hc, this.1, this.2]

lemma takeWhile_all_append {p : Char → Bool} : ∀ xs : PyStr,
    (∀ c ∈ xs, p c = true) → ∀ (y : Char), p y = false → ∀ ys : PyStr,
    (xs ++ y :: ys).takeWhile p = xs ∧ (xs ++ y :: ys).dropWhile p = y :: ys := by
  intro xs
  induction xs with
  | nil =>
    intro _ y hy ys
    simp [List.takeWhile_cons, List.dropWhile_cons, hy]
  | cons x xs ih =>
    intro h y hy ys
    have hx : p x = true := h x (by simp)
    have := ih (fun c hc => h c (by simp [hc])) y hy ys
    simp [List.takeWhile_cons, List.dropWhile_cons, hx, this.1, this.2]

lemma takeWhile_mem {p : Char → Bool} : ∀ l : PyStr, ∀ c ∈ l.takeWhile p, p c = true := by
  intro l
  induction l with
  | nil => intro c hc; cases hc
  | cons x xs ih =>
    intro c hc
    rw [List.takeWhile_cons] at hc
    by_cases hx : p x
    · rw [if_pos hx] at hc
      rw [List.mem_cons] at hc
      rcases hc with rfl | hc
      · exact hx
      · exact ih c hc
    · rw [if_neg hx] at hc
      cases hc

lemma dropWhile_head_not {p : Char → Bool} : ∀ (l : PyStr) (c : Char),
    (l.dropWhile p).head? = some c → p c = false := by
  intro l
  induction l with
  | nil => intro c hc; cases hc
  | cons x xs ih =>
    intro c hc
    rw [List.dropWhile_cons] at hc
    by_cases hx : p x
    · rw [if_pos hx] at hc
      exact ih c hc
    · rw [if_neg hx] at hc
      rw [List.head?_cons, Option.some.injEq] at hc
      rw [← hc]
      simpa using hx

lemma stripHead_iff (pre : PyStr) : ∀ (cs r : PyStr),
    stripHead pre cs = some r ↔ cs = pre ++ r := by
  induction pre with
  | nil =>
    intro cs r
    simp [stripHead]
  | cons p ps ih =>
    intro cs r
    cases cs with
    | nil =>
      simp only [stripHead]
      constructor
      · intro h; cases h
      · intro h; cases h
    | cons c cs =>
      simp only [stripHead]
      by_cases hpc : p = c
      · rw [if_pos (by simp [hpc])]
        rw [ih cs r]
        simp [hpc]
      · rw [if_neg (by simp [hpc])]
        constructor
        · intro h; cases h
        · intro h
          rw [List.cons_append, List.cons.injEq] at h
          exact absurd h.1.symm hpc

lemma matchPat_some_iff {pre suf : PyStr}
    (hsuf : ∀ c, suf.head? = some c → isDig c = false) (l g : PyStr) :
    matchPat pre suf l = some g ↔ GroupAt pre suf l 0 g := by
  unfold GroupAt
  simp only [List.drop_zero]
  constructor
  · intro h
    unfold matchPat at h
    split at h
    · cases h
    · rename_i r1 hsh
      have hl : l = pre ++ r1 := (stripHead_iff pre l r1).mp hsh
      by_cases ha : r1.takeWhile isDig = []
      · rw [if_pos ha] at h; cases h
      · rw [if_neg ha] at h
        split at h
        · cases h
        · rename_i d r2 hdw
          by_cases hd : d = '.'
          · rw [if_pos hd] at h
            by_cases hb : r2.takeWhile isDig = []
            · rw [if_pos hb] at h; cases h
            · rw [if_neg hb] at h
              by_cases hsw : startsW suf (r2.dropWhile isDig) = true
              · rw [if_pos hsw] at h
                rw [Option.some.injEq] at h
                obtain ⟨rest, hrest⟩ := (startsW_iff suf (r2.dropWhile isDig)).mp hsw
                obtain ⟨A, hA⟩ : ∃ A, List.takeWhile isDig r1 = A := ⟨_, rfl⟩
                obtain ⟨B, hB⟩ : ∃ B, List.takeWhile isDig r2 = B := ⟨_, rfl⟩
                rw [hA, hB] at h
                refine ⟨A, B, rest, h.symm, hA ▸ ha, hB ▸ hb,
                  hA ▸ takeWhile_mem r1, hB ▸ takeWhile_mem r2, ?_, ?_⟩
                · have hr1A : r1 = A ++ '.' :: r2 := by
                    rw [← hA]
                    have hx := List.takeWhile_append_dropWhile (p := isDig) (l := r1)
                    rw [hdw, hd] at hx
                    exact hx.symm
                  have hr2B : r2 = B ++ (suf ++ rest) := by
                    rw [← hB]
                    have hx := List.takeWhile_append_dropWhile (p := isDig) (l := r2)
                    rw [hrest] at hx
                    exact hx.symm
                  rw [hl, hr1A, hr2B]
                  simp
                · intro hse c hc
                  rw [hse, List.nil_append] at hrest
                  rw [← hrest] at hc
                  exact dropWhile_head_not r2 c hc
              · rw [if_neg hsw] at h; cases h
          · rw [if_neg hd] at h; cases h
  · rintro ⟨a, b, rest, hg, hane, hbne, hadig, hbdig, hdecomp, hmax⟩
    have h2 := takeWhile_all_append (p := isDig) a hadig '.' (by decide)
      (b ++ (suf ++ rest))
    have h3 : (b ++ (suf ++ rest)).takeWhile isDig = b ∧
        (b ++ (suf ++ rest)).dropWhile isDig = suf ++ rest := by
      rcases hs : suf with - | ⟨s0, stail⟩
      · rcases hr : rest with - | ⟨r0, rtail⟩
        · have hth := takeWhile_all (p := isDig) b hbdig
          simpa using hth
        · have hr0 : isDig r0 = false := hmax hs r0 (by rw [hr]; rfl)
          have hth := takeWhile_all_append (p := isDig) b hbdig r0 hr0 rtail
          exact ⟨hth.1, hth.2⟩
      · have hs0 : isDig s0 = false := hsuf s0 (by rw [hs]; rfl)
        have hth := takeWhile_all_append (p := isDig) b hbdig s0 hs0 (stail ++ rest)
        exact ⟨hth.1, hth.2⟩
    have h4 : startsW suf (suf ++ rest) = true := (startsW_iff suf _).mpr ⟨rest, rfl⟩
    have h1 : stripHead pre l = some (a ++ '.' :: (b ++ (suf ++ rest))) := by
      rw [stripHead_iff]
      rw [hdecomp]
      simp
    unfold matchPat
    rw [h1]
    show (if (a ++ '.' :: (b ++ (suf ++ rest))).takeWhile isDig = [] then none
      else match (a ++ '.' :: (b ++ (suf ++ rest))).dropWhile isDig with
        | [] => none
        | d :: r2 =>
          if d = '.' then
            if r2.takeWhile isDig = [] then none
            else if startsW suf (r2.dropWhile isDig) then
              some ((a ++ '.' :: (b ++ (suf ++ rest))).takeWhile isDig
                ++ '.' :: r2.takeWhile isDig)
            else none
          else none) = some g
    rw [h2.1, h2.2, if_neg hane]
    show (if '.' = '.' then
        if (b ++ (suf ++ rest)).takeWhile isDig = [] then none
        else if startsW suf ((b ++ (suf ++ rest)).dropWhile isDig) then
          some (a ++ '.' :: (b ++ (suf ++ rest)).takeWhile isDig)
        else none
      else none) = some g
    rw [if_pos rfl, h3.1, h3.2, if_neg hbne, if_pos h4, hg]

lemma GroupAt_nil (pre suf : PyStr) (i : Nat) (g : PyStr) :
    ¬ GroupAt pre suf [] i g := by
  rintro ⟨a, b, rest, -, hane, -, -, -, hdecomp, -⟩
  rw [List.drop_nil] at hdecomp
  rcases pre with - | ⟨p, ps⟩
  · rcases a with - | ⟨x, xs⟩
    · exact hane rfl
    · cases hdecomp
  · cases hdecomp

lemma GroupAt_succ (pre suf : PyStr) (c : Char) (cs : PyStr) (i : Nat) (g : PyStr) :
    GroupAt pre suf (c :: cs) (i + 1) g ↔ GroupAt pre suf cs i g := by
  unfold GroupAt
  rw [List.drop_succ_cons]

lemma GroupAt_iff_matchPat {pre suf : PyStr}
    (hsuf : ∀ c, suf.head? = some c → isDig c = false) (cs : PyStr) (i : Nat) (g : PyStr) :
    GroupAt pre suf cs i g ↔ matchPat pre suf (cs.drop i) = some g := by
  rw [matchPat_some_iff hsuf (cs.drop i) g]
  unfold GroupAt
  simp only [List.drop_zero]

lemma searchPat_none_iff {pre suf : PyStr}
    (hsuf : ∀ c, suf.head? = some c → isDig c = false) :
    ∀ cs : PyStr, searchPat pre suf cs = none ↔
      ∀ (i : Nat) (g : PyStr), ¬ GroupAt pre suf cs i g := by
  intro cs
  induction cs with
  | nil =>
    constructor
    · intro _ i g
      exact GroupAt_nil pre suf i g
    · intro _
      show matchPat pre suf [] = none
      cases hm : matchPat pre suf [] with
      | none => rfl
      | some g =>
        exact absurd ((matchPat_some_iff hsuf [] g).mp hm)
          (by simpa [GroupAt, List.drop_zero] using GroupAt_nil pre suf 0 g)
  | cons c cs ih =>
    constructor
    · intro h i g hG
      cases hm : matchPat pre suf (c :: cs) with
      | some g0 =>
        rw [show searchPat pre suf (c :: cs)
            = (match matchPat pre suf (c :: cs) with
              | some g => some g
              | none => searchPat pre suf cs) from rfl, hm] at h
        cases h
      | none =>
        have hrest : searchPat pre suf cs = none := by
          rw [show searchPat pre suf (c :: cs)
              = (match matchPat pre suf (c :: cs) with
                | some g => some g
                | none => searchPat pre suf cs) from rfl, hm] at h
          exact h
        match i with
        | 0 =>
          have := (matchPat_some_iff hsuf (c :: cs) g).mpr
            (by simpa [GroupAt, List.drop_zero] using hG)
          rw [hm] at this
          cases this
        | i + 1 =>
          exact (ih.mp hrest) i g ((GroupAt_succ pre suf c cs i g).mp hG)
    · intro h
      show (match matchPat pre suf (c :: cs) with
        | some g => some g
        | none => searchPat pre suf cs) = none
      cases hm : matchPat pre suf (c :: cs) with
      | some g0 =>
        exact absurd (by simpa [GroupAt, List.drop_zero]
            using (matchPat_some_iff hsuf (c :: cs) g0).mp hm)
          (h 0 g0)
      | none =>
        exact ih.mpr (fun i g hG => h (i + 1) g ((GroupAt_succ pre suf c cs i g).mpr hG))

lemma searchPat_some_min {pre suf : PyStr}
    (hsuf : ∀ c, suf.head? = some c → isDig c = false) :
    ∀ (cs g : PyStr), searchPat pre suf cs = some g →
      ∃ i, GroupAt pre suf cs i g ∧
        ∀ j, j < i → ∀ g2, ¬ GroupAt pre suf cs j g2 := by
  intro cs
  induction cs with
  | nil =>
    intro g h
    have hG := (matchPat_some_iff hsuf [] g).mp h
    exact absurd (by simpa [GroupAt, List.drop_zero] using hG)
      (GroupAt_nil pre suf 0 g)
  | cons c cs ih =>
    intro g h
    rw [show searchPat pre suf (c :: cs)
        = (match matchPat pre suf (c :: cs) with
          | some g => some g
          | none => searchPat pre suf cs) from rfl] at h
    cases hm : matchPat pre suf (c :: cs) with
    | some g0 =>
      rw [hm] at h
      rw [Option.some.injEq] at h
      subst h
      refine ⟨0, ?_, ?_⟩
      · simpa [GroupAt, List.drop_zero]
          using (matchPat_some_iff hsuf (c :: cs) g0).mp hm
      · intro j hj
        omega
    | none =>
      rw [hm] at h
      obtain ⟨i, hGi, hmin⟩ := ih g h
      refine ⟨i + 1, (GroupAt_succ pre suf c cs i g).mpr hGi, ?_⟩
      intro j hj g2
      match j with
      | 0 =>
        intro hG0
        have := (matchPat_some_iff hsuf (c :: cs) g2).mpr
          (by simpa [GroupAt, List.drop_zero] using hG0)
        rw [hm] at this
        cases this
      | k + 1 =>
        intro hGk
        exact hmin k (by omega) g2 ((GroupAt_succ pre suf c cs k g2).mp hGk)

/-- C9: pattern extraction.  For the source patterns — a currency-marked
decimal (prefix HK$, empty suffix) and a ratio-marked decimal (empty
prefix, suffix x), and any pattern of that literal-prefix/group/literal-
suffix shape whose suffix does not start with a digit — `_extract`
returns the captured decimal of the leftmost match, and returns the
sentinel N/A on an empty fragment or when no position matches. -/
theorem C9_extract_first_match (text pre suf : PyStr)
    (hsuf : ∀ c, suf.head? = some c → isDig c = false) :
    (text = [] → _extract text pre suf = "N/A".data) ∧
    ((∀ i g, ¬ GroupAt pre suf text i g) → _extract text pre suf = "N/A".data) ∧
    (∀ i g, GroupAt pre suf text i g →
      (∀ j, j < i → ∀ g2, ¬ GroupAt pre suf text j g2) →
      _extract text pre suf = g) := by
  refine ⟨?_, ?_, ?_⟩
  · intro h
    rw [h]
    rfl
  · intro hno
    unfold _extract
    by_cases ht : text = []
    · rw [if_pos ht]
    · rw [if_neg ht]
      cases hsp : searchPat pre suf text with
      | none => rfl
      | some g =>
        obtain ⟨i, hGi, -⟩ := searchPat_some_min hsuf text g hsp
        exact absurd hGi (hno i g)
  · intro i g hG hmin
    have ht : text ≠ [] := by
      intro he
      rw [he] at hG
      exact GroupAt_nil pre suf i g hG
    unfold _extract
    rw [if_neg ht]
    cases hsp : searchPat pre suf text with
    | none =>
      exact absurd hG (((searchPat_none_iff hsuf text).mp hsp) i g)
    | some g2 =>
      obtain ⟨i2, hG2, hmin2⟩ := searchPat_some_min hsuf text g2 hsp
      have hieq : i2 = i := by
        by_contra hne
        rcases Nat.lt_or_ge i2 i with hlt | hge
        · exact hmin i2 hlt g2 hG2
        · exact hmin2 i (by omega) g hG
      subst hieq
      have hmg := (GroupAt_iff_matchPat hsuf text i2 g).mp hG
      have hmg2 := (GroupAt_iff_matchPat hsuf text i2 g2).mp hG2
      rw [hmg] at hmg2
      rw [Option.some.injEq] at hmg2
      rw [hmg2]

/-- C9 witness: in the fragment with two currency-marked decimals the
extractor returns the first, 12.34; a non-matching fragment and the empty
fragment yield the sentinel. -/
theorem C9_extract_first_match_witness :
    GroupAt "HK$".data [] "HK$12.34 HK$5.67".data 0 "12.34".data ∧
    _extract "HK$12.34 HK$5.67".data "HK$".data [] = "12.34".data ∧
    _extract "hello".data "HK$".data [] = "N/A".data ∧
    _extract [] "HK$".data [] = "N/A".data ∧
    _extract "7.5x".data [] "x".data = "7.5".data := by
  have hsuf0 : ∀ c : Char, ([] : PyStr).head? = some c → isDig c = false := by
    intro c hc
    cases hc
  have hsufx : ∀ c : Char, ("x".data : PyStr).head? = some c → isDig c = false := by
    intro c hc
    rw [show ("x".data : PyStr).head? = some 'x' from rfl, Option.some.injEq] at hc
    rw [← hc]
    decide
  have hG : GroupAt "HK$".data [] "HK$12.34 HK$5.67".data 0 "12.34".data := by
    refine ⟨"12".data, "34".data, " HK$5.67".data, by decide, by decide, by decide,
      by decide, by decide, by decide, ?_⟩
    intro _ c hc
    rw [show ((" HK$5.67".data : PyStr)).head? = some ' ' from rfl,
      Option.some.injEq] at hc
    rw [← hc]
    decide
  have hGx : GroupAt [] "x".data "7.5x".data 0 "7.5".data := by
    refine ⟨"7".data, "5".data, [], by decide, by decide, by decide,
      by decide, by decide, by decide, ?_⟩
    intro hx
    exact absurd hx (by decide)
  refine ⟨hG, ?_, ?_, ?_, ?_⟩
  · exact (C9_extract_first_match "HK$12.34 HK$5.67".data "HK$".data [] hsuf0).2.2
      0 "12.34".data hG (by intro j hj; omega)
  · refine (C9_extract_first_match "hello".data "HK$".data [] hsuf0).2.1 ?_
    exact (searchPat_none_iff hsuf0 "hello".data).mp (by decide)
  · exact (C9_extract_first_match [] "HK$".data [] hsuf0).1 rfl
  · exact (C9_extract_first_match "7.5x".data [] "x".data hsufx).2.2
      0 "7.5".data hGx (by intro j hj; omega)
